import Mathlib

/-!
Verification development for a cache-oblivious power-of-two FFT package
consisting of three Python modules: `util.py` (`lb_exact`), `transpose.py`
(`_swap_transpose_square`, `transpose_square`) and the package body
(`_interleave`, `_deinterleave`, `_fft_inplace_evenpow`, `_fft_inplace_oddpow`,
`_fft_inplace`, `_scrach_length`, `fft`).

Embedding conventions: a numpy buffer is a total function out of `ℕ` carrying
its contents (indices beyond the view length are junk that no theorem reads);
in-place mutation becomes explicit rebinding of the mutated buffer; a raised
Python exception becomes `Option.none`; complex numbers are exact `ℂ`.
-/

namespace CacheFFT

/-- Embedding of `util.lb_exact`.  Python `n.bit_length()` is
`Nat.size n.natAbs` (`bit_length` uses the absolute value), `1 << lb` is
`2 ^ lb`, and the guard mirrors `if lb < 0 or n != 1 << lb: raise ValueError`
with Python short-circuit evaluation (the shift is not evaluated when
`lb < 0`). -/
def lb_exact (n : ℤ) : Option ℕ :=
  let lb : ℤ := (Nat.size n.natAbs : ℤ) - 1
  if lb < 0 then none
  else if n ≠ (2 : ℤ) ^ lb.toNat then none
  else some lb.toNat

/-- Embedding of the `while lb_n & 1 == 0: lb_n >>= 1` loop of
`_scrach_length`: repeatedly halve while even.  The source loop is reached
only for positive arguments (`_scrach_length` returns early on `0`); the
`n = 0` branch only makes the recursion total. -/
def stripTwos (n : ℕ) : ℕ :=
  if n = 0 then 0
  else if n % 2 = 0 then stripTwos (n / 2)
  else n
termination_by n
decreasing_by omega

/-- Embedding of `_scrach_length` (`>> 1` is division by two, `1 << e` is
`2 ^ e`). -/
def scrachLength (lb_n : ℕ) : ℕ :=
  if lb_n = 0 then 0
  else
    let lb := stripTwos lb_n
    let lb_res := (lb - 1) / 2
    if lb_res = 0 then 0 else 2 ^ lb_res

/-- Twiddle factor `np.exp(-2j*np.pi*e/N)`, i.e. `exp(-2πi·e/N)`. -/
noncomputable def w (N e : ℕ) : ℂ := Complex.exp (-2 * (Real.pi : ℂ) * Complex.I * (e : ℂ) / (N : ℂ))

/-- The forward DFT sum of the spec: `result[t] = Σ_{m<N} x[m]·exp(-2πi·t·m/N)`. -/
noncomputable def dftN (N : ℕ) (x : ℕ → ℂ) (t : ℕ) : ℂ := ∑ m ∈ Finset.range N, x m * w N (t * m)

section Interleave

variable {α : Type*}

/-- Embedding of the `for i in range(half_n)` loop of `_interleave`
(`x[2*i] = scratch[i]; x[2*i+1] = x[half_n+i]`), unrolled from iteration `0`
up to (excluding) the first argument. -/
def interLoop (h : ℕ) (s : ℕ → α) : ℕ → (ℕ → α) → (ℕ → α)
  | 0, x => x
  | i + 1, x =>
    let y := interLoop h s i x
    let y1 := Function.update y (2 * i) (s i)
    Function.update y1 (2 * i + 1) (y1 (h + i))

/-- Embedding of `_interleave`.  The scratch argument mirrors the Python
variable: `none` is `None` (whose attribute accesses raise), otherwise
contents plus allocated length.  The shape/evenness/length asserts become the
guard; `scratch = scratch[:half_n]; scratch[:] = x[:half_n]` is the pointwise
copy into the first `half_n` cells. -/
def interleaveOp (n : ℕ) (x : ℕ → α) (scr : Option ((ℕ → α) × ℕ)) :
    Option ((ℕ → α) × ((ℕ → α) × ℕ)) :=
  match scr with
  | none => none
  | some (s, L) =>
    if n % 2 = 0 ∧ n / 2 ≤ L then
      let h := n / 2
      let s1 := fun i => if i < h then x i else s i
      some (interLoop h s1 h x, (s1, L))
    else none

/-- Embedding of the `for i in range(half_n)` loop of `_deinterleave`
(`x[i] = x[2*i]; scratch[i] = x[2*i+1]`), unrolled from iteration `0`. -/
def deinterLoop : ℕ → ((ℕ → α) × (ℕ → α)) → ((ℕ → α) × (ℕ → α))
  | 0, p => p
  | i + 1, p =>
    let q := deinterLoop i p
    let x1 := Function.update q.1 i (q.1 (2 * i))
    let s1 := Function.update q.2 i (x1 (2 * i + 1))
    (x1, s1)

/-- Embedding of `_deinterleave`: the loop followed by `x[half_n:] = scratch`. -/
def deinterleaveOp (n : ℕ) (x : ℕ → α) (scr : Option ((ℕ → α) × ℕ)) :
    Option ((ℕ → α) × ((ℕ → α) × ℕ)) :=
  match scr with
  | none => none
  | some (s, L) =>
    if n % 2 = 0 ∧ n / 2 ≤ L then
      let h := n / 2
      let q := deinterLoop h (x, s)
      let x2 := fun j => if h ≤ j ∧ j < 2 * h then q.2 (j - h) else q.1 j
      some (x2, (q.2, L))
    else none

end Interleave

section Transpose

variable {β : Type*}

/-- Reassemble a square matrix from its four `h×h` quadrants, as the in-place
quadrant writes of `transpose.py` do on the underlying buffer. -/
def quad (h : ℕ) (tl tr bl br : ℕ → ℕ → β) : ℕ → ℕ → β :=
  fun i j =>
    if i < h then (if j < h then tl i j else tr i (j - h))
    else (if j < h then bl (i - h) j else br (i - h) (j - h))

/-- Embedding of `_swap_transpose_square`.  A matrix of shape `(n, n, m)` is a
function of the two outer indices whose value is the whole atomic `m`-group
(the `n == 1` base case swaps the two `m`-groups elementwise, i.e. exchanges
the two values).  Sub-views `a[r0:r0+h, c0:c0+h]` become index-shifted
functions; the result pair is (new `a`, new `b`). -/
def swapT (n : ℕ) (a b : ℕ → ℕ → β) : (ℕ → ℕ → β) × (ℕ → ℕ → β) :=
  if n = 0 then (a, b)
  else if n = 1 then
    (fun i j => if i = 0 ∧ j = 0 then b 0 0 else a i j,
     fun i j => if i = 0 ∧ j = 0 then a 0 0 else b i j)
  else
    let h := n / 2
    let p1 := swapT h (fun i j => a i j) (fun i j => b i j)
    let p2 := swapT h (fun i j => a i (h + j)) (fun i j => b (h + i) j)
    let p3 := swapT h (fun i j => a (h + i) j) (fun i j => b i (h + j))
    let p4 := swapT h (fun i j => a (h + i) (h + j)) (fun i j => b (h + i) (h + j))
    (quad h p1.1 p2.1 p3.1 p4.1, quad h p1.2 p3.2 p2.2 p4.2)
termination_by n
decreasing_by all_goals omega

/-- Embedding of `transpose_square`.  The two `ValueError` shape checks
(`len(a.shape) != 3`, `n != n_`) are statically satisfied by the embedding
(the shape is the explicit parameter `n` plus the atomic payload); the
`lb_exact(n)` call raises, hence `none`, when `n` is not a power of two. -/
def transposeSquare (n : ℕ) (a : ℕ → ℕ → β) : Option (ℕ → ℕ → β) :=
  (lb_exact (n : ℤ)).bind (fun _ =>
    if n ≤ 1 then some a
    else
      let h := n / 2
      (transposeSquare h (fun i j => a i j)).bind (fun tl =>
        let pr := swapT h (fun i j => a i (h + j)) (fun i j => a (h + i) j)
        (transposeSquare h (fun i j => a (h + i) (h + j))).map (fun br =>
          quad h tl pr.1 pr.2 br)))
termination_by n
decreasing_by all_goals omega

end Transpose

/-- The scratch buffer as held by the FFT driver: `None`, or contents together
with the allocated length. -/
abbrev Scratch := Option ((ℕ → ℂ) × ℕ)

/-- Length of the scratch buffer (`0` for `None`). -/
def scrLenOf : Scratch → ℕ
  | none => 0
  | some p => p.2

/-- Overwrite row `i` of a matrix: the effect on the matrix of an in-place
update of the row view `x[i]`. -/
def setRow {β : Type*} (M : ℕ → ℕ → β) (i : ℕ) (r : ℕ → β) : ℕ → ℕ → β :=
  fun a b => if a = i then r b else M a b

/-- Sequential `for row in x` loop over rows `0..n-1` of a matrix, threading
the shared scratch buffer through the per-row body `f` and writing each
processed row back in place. -/
def rowsM {β : Type*} (f : ℕ → (ℕ → β) → Scratch → Option ((ℕ → β) × Scratch)) :
    ℕ → (ℕ → ℕ → β) → Scratch → Option ((ℕ → ℕ → β) × Scratch)
  | 0, M, scr => some (M, scr)
  | i + 1, M, scr =>
    (rowsM f i M scr).bind (fun p =>
      (f i (p.1 i) p.2).map (fun q => (setRow p.1 i q.1, q.2)))

/-- View a flat buffer as an `n0×n0×1` row-major matrix (`x.shape = n, n, 1`). -/
def toMat (n0 : ℕ) (x : ℕ → ℂ) : ℕ → ℕ → ℂ := fun r c => x (r * n0 + c)

/-- Read the flat buffer back out of the `n0×n0×1` view. -/
def ofMat (n0 : ℕ) (M : ℕ → ℕ → ℂ) : ℕ → ℂ := fun t => M (t / n0) (t % n0)

/-- View a flat buffer as a `colLen×colLen×2` row-major matrix of pairs
(`x.shape = col_len, col_len, 2`). -/
def toMatP (colLen : ℕ) (x : ℕ → ℂ) : ℕ → ℕ → ℂ × ℂ :=
  fun r c => (x (r * (2 * colLen) + 2 * c), x (r * (2 * colLen) + 2 * c + 1))

/-- Flatten one row of pairs (`row_pair.shape = row_len,`). -/
def pairRowFlat (row : ℕ → ℂ × ℂ) : ℕ → ℂ :=
  fun j => if j % 2 = 0 then (row (j / 2)).1 else (row (j / 2)).2

/-- Reassemble a flat row as pairs (the inverse view change). -/
def pairRowUnflat (v : ℕ → ℂ) : ℕ → ℂ × ℂ := fun c => (v (2 * c), v (2 * c + 1))

/-- Read the flat buffer back out of the `colLen×colLen×2` view. -/
def ofMatP (colLen : ℕ) (P : ℕ → ℕ → ℂ × ℂ) : ℕ → ℂ :=
  fun t => pairRowFlat (P (t / (2 * colLen))) (t % (2 * colLen))

/-- Body of the first `for` loop of `_fft_inplace_evenpow` (factored out of
the loop for reuse in lemma statements): FFT the row view in place via the
callee `rec`, then multiply by the twiddle factors
`np.exp(-2j*np.pi*(i*j)/vec_len)` — only indices `j < n` are written. -/
noncomputable def evenRowPass1 (rec : ℕ → (ℕ → ℂ) → Scratch → Option ((ℕ → ℂ) × Scratch))
    (vecLen n i : ℕ) (row : ℕ → ℂ) (scr : Scratch) : Option ((ℕ → ℂ) × Scratch) :=
  (rec n row scr).map (fun p =>
    (fun j => if j < n then p.1 j * w vecLen (i * j) else p.1 j, p.2))

/-- Body of a plain `for row in x: _fft_inplace(row, scratch)` loop. -/
def plainRowPass (rec : ℕ → (ℕ → ℂ) → Scratch → Option ((ℕ → ℂ) × Scratch))
    (n : ℕ) (_i : ℕ) (row : ℕ → ℂ) (scr : Scratch) : Option ((ℕ → ℂ) × Scratch) :=
  rec n row scr

/-- Embedding of `_fft_inplace_evenpow`, parameterized by the recursive callee
`rec` standing for `_fft_inplace`.  The numpy reshape `x.shape = n, n, 1`
raises unless `n*n*1` equals the flat length, hence the guard. -/
noncomputable def fftEvenpow (rec : ℕ → (ℕ → ℂ) → Scratch → Option ((ℕ → ℂ) × Scratch))
    (vecLen : ℕ) (x : ℕ → ℂ) (scratch : Scratch) : Option ((ℕ → ℂ) × Scratch) :=
  (lb_exact (vecLen : ℤ)).bind (fun k =>
    let n := 1 <<< (k >>> 1)
    if n * n = vecLen then
      (transposeSquare n (toMat n x)).bind (fun m1 =>
        (rowsM (evenRowPass1 rec vecLen n) n m1 scratch).bind (fun p2 =>
          (transposeSquare n p2.1).bind (fun m3 =>
            (rowsM (plainRowPass rec n) n m3 p2.2).bind (fun p4 =>
              (transposeSquare n p4.1).map (fun m5 => (ofMat n m5, p4.2))))))
    else none)

/-- Body of the first `for` loop of `_fft_inplace_oddpow` (factored out of the
loop): flatten the row of pairs (`row_pair.shape = row_len,`), deinterleave it
into the two original columns, FFT and twiddle each half in place
(`row0 = row_pair[:col_len]`, `row1 = row_pair[col_len:]`), re-interleave, and
view the row as pairs again. -/
noncomputable def oddRowPass1 (rec : ℕ → (ℕ → ℂ) → Scratch → Option ((ℕ → ℂ) × Scratch))
    (vecLen colLen rowLen i : ℕ) (rowPair : ℕ → ℂ × ℂ) (scr : Scratch) :
    Option ((ℕ → ℂ × ℂ) × Scratch) :=
  (deinterleaveOp rowLen (pairRowFlat rowPair) scr).bind (fun q1 =>
    (rec colLen q1.1 (some q1.2)).bind (fun q2 =>
      let v2 := fun j => if j < colLen then q2.1 j * w vecLen (2 * i * j) else q1.1 j
      (rec colLen (fun j => v2 (colLen + j)) q2.2).bind (fun q3 =>
        let v3 := fun j =>
          if colLen ≤ j ∧ j < rowLen then
            q3.1 (j - colLen) * w vecLen ((2 * i + 1) * (j - colLen))
          else v2 j
        (interleaveOp rowLen v3 q3.2).map (fun q4 =>
          (pairRowUnflat q4.1, some q4.2)))))

/-- Body of the second `for` loop of `_fft_inplace_oddpow`: flatten the row of
pairs, FFT it whole, view it as pairs again. -/
def oddRowPass2 (rec : ℕ → (ℕ → ℂ) → Scratch → Option ((ℕ → ℂ) × Scratch))
    (rowLen : ℕ) (_i : ℕ) (rowPair : ℕ → ℂ × ℂ) (scr : Scratch) :
    Option ((ℕ → ℂ × ℂ) × Scratch) :=
  (rec rowLen (pairRowFlat rowPair) scr).map (fun p => (pairRowUnflat p.1, p.2))

/-- Body of the final `for` loop of `_fft_inplace_oddpow`: flatten the row of
pairs, deinterleave it, view it as pairs again. -/
def oddRowPass3 (rowLen : ℕ) (_i : ℕ) (rowPair : ℕ → ℂ × ℂ) (scr : Scratch) :
    Option ((ℕ → ℂ × ℂ) × Scratch) :=
  (deinterleaveOp rowLen (pairRowFlat rowPair) scr).map (fun p =>
    (pairRowUnflat p.1, some p.2))

/-- Embedding of `_fft_inplace_oddpow`, parameterized by the recursive callee
`rec` standing for `_fft_inplace`.  The reshape `x.shape = col_len, col_len, 2`
raises unless the total size matches, hence the guard. -/
noncomputable def fftOddpow (rec : ℕ → (ℕ → ℂ) → Scratch → Option ((ℕ → ℂ) × Scratch))
    (vecLen : ℕ) (x : ℕ → ℂ) (scratch : Scratch) : Option ((ℕ → ℂ) × Scratch) :=
  (lb_exact (vecLen : ℤ)).bind (fun k =>
    let colLen := 1 <<< (k >>> 1)
    let rowLen := colLen <<< 1
    if colLen * colLen * 2 = vecLen then
      (transposeSquare colLen (toMatP colLen x)).bind (fun p1 =>
        (rowsM (oddRowPass1 rec vecLen colLen rowLen) colLen p1 scratch).bind (fun a2 =>
          (transposeSquare colLen a2.1).bind (fun p3 =>
            (rowsM (oddRowPass2 rec rowLen) colLen p3 a2.2).bind (fun a4 =>
              (transposeSquare colLen a4.1).bind (fun p5 =>
                (rowsM (oddRowPass3 rowLen) colLen p5 a4.2).map (fun a6 =>
                  (ofMatP colLen a6.1, a6.2)))))))
    else none)

/-- Embedding of `_fft_inplace`.  `fuel` only bounds the recursion depth (the
source recursion terminates because lengths strictly shrink; the public
wrapper passes ample fuel, and with enough fuel the `0` branch is
unreachable).  The `x.view()` shape-protection and the contiguity assertion
are representation-level no-ops in this functional embedding.  `is_odd` tests
`lb_n & 1 != 0`. -/
noncomputable def fftInplaceGo : ℕ → ℕ → (ℕ → ℂ) → Scratch → Option ((ℕ → ℂ) × Scratch)
  | 0, _, _, _ => none
  | fuel + 1, n, x, scratch =>
    if n = 1 then some (x, scratch)
    else if n = 2 then
      some (fun j => if j = 0 then x 0 + x 1 else if j = 1 then x 0 - x 1 else x j,
        scratch)
    else
      (lb_exact (n : ℤ)).bind (fun lb_n =>
        if lb_n &&& 1 ≠ 0 then fftOddpow (fftInplaceGo fuel) n x scratch
        else fftEvenpow (fftInplaceGo fuel) n x scratch)

/-- Embedding of the public `fft`.  The first component of the result is the
caller-owned buffer after the call: every in-place mutation in this embedding
rebinds the buffer it targets, and no statement of `fft` writes to `x` (it is
only read by `x.shape` and `x.copy()`), so the caller buffer passes through
unchanged on both the error path and the success path.  The second component
is the returned transform, `none` standing for the raised `ValueError`.
`np.empty_like` allocates uninitialized storage: the all-zero contents stand
for arbitrary initial contents (no result depends on them). -/
noncomputable def fft (x : List ℂ) : List ℂ × Option (List ℂ) :=
  let n := x.length
  match lb_exact (n : ℤ) with
  | none => (x, none)
  | some lb_n =>
    let scratch_len := scrachLength lb_n
    let scratch : Scratch :=
      if scratch_len = 0 then none else some (fun _ => 0, scratch_len)
    let res : ℕ → ℂ := fun i => x.getD i 0
    match fftInplaceGo n n res scratch with
    | none => (x, none)
    | some (y, _) => (x, some ((List.range n).map y))

/-! Characterization of `lb_exact`. -/

lemma lb_exact_pow (k : ℕ) : lb_exact ((2 ^ k : ℕ) : ℤ) = some k := by
  simp only [lb_exact, Int.natAbs_ofNat, Nat.size_pow]
  have h2 : ((k + 1 : ℕ) : ℤ) - 1 = (k : ℤ) := by push_cast; ring
  rw [h2]
  have h3 : ¬ ((k : ℤ) < 0) := by exact_mod_cast Int.natCast_nonneg k |>.not_lt
  rw [if_neg h3, Int.toNat_natCast]
  have h4 : ((2 ^ k : ℕ) : ℤ) = (2 : ℤ) ^ k := by push_cast; ring
  simp [h4]

lemma lb_exact_some_iff (n : ℤ) (k : ℕ) : lb_exact n = some k ↔ n = 2 ^ k := by
  constructor
  · intro h
    simp only [lb_exact] at h
    split_ifs at h with h1 h2
    push_neg at h2
    have hk : ((Nat.size n.natAbs : ℤ) - 1).toNat = k := Option.some_inj.mp h
    rw [h2, hk]
  · rintro rfl
    have h : ((2 : ℤ) ^ k) = ((2 ^ k : ℕ) : ℤ) := by push_cast; ring
    rw [h, lb_exact_pow]

lemma lb_exact_none_iff (n : ℤ) : lb_exact n = none ↔ ∀ k : ℕ, n ≠ 2 ^ k := by
  constructor
  · intro h k hk
    rw [(lb_exact_some_iff n k).mpr hk] at h
    exact Option.some_ne_none _ h
  · intro h
    cases hcase : lb_exact n with
    | none => rfl
    | some k => exact absurd ((lb_exact_some_iff n k).mp hcase) (h k)

lemma lb_exact_nonpos (n : ℤ) (h : n ≤ 0) : lb_exact n = none := by
  refine (lb_exact_none_iff n).mpr (fun k hk => ?_)
  have hpos : (0 : ℤ) < 2 ^ k := by positivity
  omega

/-! Properties of `stripTwos` and `scrachLength`. -/

lemma stripTwos_odd (n : ℕ) (h : n % 2 = 1) : stripTwos n = n := by
  rw [stripTwos]
  simp [show n ≠ 0 by omega, show ¬(n % 2 = 0) by omega]

lemma stripTwos_even (n : ℕ) (h0 : n ≠ 0) (h : n % 2 = 0) :
    stripTwos n = stripTwos (n / 2) := by
  rw [stripTwos]
  simp [h0, h]

lemma stripTwos_le (n : ℕ) : stripTwos n ≤ n := by
  induction n using Nat.strong_induction_on with
  | _ n ih =>
    rcases Nat.eq_zero_or_pos n with h0 | h0
    · subst h0; simp [stripTwos]
    rcases Nat.even_or_odd n with he | ho
    · have h2 : n % 2 = 0 := Nat.even_iff.mp he
      rw [stripTwos_even n (by omega) h2]
      have := ih (n / 2) (by omega)
      omega
    · rw [stripTwos_odd n (Nat.odd_iff.mp ho)]

lemma stripTwos_mod_two (n : ℕ) (h0 : n ≠ 0) : stripTwos n % 2 = 1 := by
  induction n using Nat.strong_induction_on with
  | _ n ih =>
    rcases Nat.even_or_odd n with he | ho
    · have h2 : n % 2 = 0 := Nat.even_iff.mp he
      rw [stripTwos_even n h0 h2]
      exact ih (n / 2) (by omega) (by omega)
    · rw [stripTwos_odd n (Nat.odd_iff.mp ho)]
      exact Nat.odd_iff.mp ho

lemma stripTwos_two_pow (j : ℕ) : stripTwos (2 ^ j) = 1 := by
  induction j with
  | zero => simp [stripTwos]
  | succ j ih =>
    have h0 : (2 : ℕ) ^ (j + 1) ≠ 0 := by positivity
    have h2 : 2 ^ (j + 1) % 2 = 0 := by
      simp [Nat.pow_succ, Nat.mul_mod_left]
    rw [stripTwos_even _ h0 h2]
    have h3 : 2 ^ (j + 1) / 2 = 2 ^ j := by
      rw [Nat.pow_succ]
      omega
    rw [h3, ih]

lemma stripTwos_eq_one_iff (n : ℕ) (h0 : n ≠ 0) :
    stripTwos n = 1 ↔ ∃ j, n = 2 ^ j := by
  constructor
  · intro h
    induction n using Nat.strong_induction_on with
    | _ n ih =>
      rcases Nat.even_or_odd n with he | ho
      · have h2 : n % 2 = 0 := Nat.even_iff.mp he
        rw [stripTwos_even n h0 h2] at h
        obtain ⟨j, hj⟩ := ih (n / 2) (by omega) (by omega) h
        exact ⟨j + 1, by rw [Nat.pow_succ]; omega⟩
      · rw [stripTwos_odd n (Nat.odd_iff.mp ho)] at h
        exact ⟨0, by omega⟩
  · rintro ⟨j, rfl⟩
    exact stripTwos_two_pow j

lemma scrachLength_zero : scrachLength 0 = 0 := rfl

lemma scrachLength_odd (k : ℕ) (h1 : k % 2 = 1) (h3 : 3 ≤ k) :
    scrachLength k = 2 ^ (k / 2) := by
  have hs := stripTwos_odd k h1
  simp only [scrachLength, hs]
  rw [if_neg (show ¬ k = 0 by omega), if_neg (show ¬ (k - 1) / 2 = 0 by omega)]
  congr 1
  omega

lemma scrachLength_even (k : ℕ) (h0 : k ≠ 0) (h : k % 2 = 0) :
    scrachLength k = scrachLength (k / 2) := by
  have hs := stripTwos_even k h0 h
  simp only [scrachLength, hs]
  rw [if_neg h0, if_neg (show ¬ k / 2 = 0 by omega)]

lemma scrachLength_le (k : ℕ) : scrachLength k ≤ 2 ^ ((k - 1) / 2) := by
  simp only [scrachLength]
  split_ifs with h0 h1
  · exact Nat.zero_le _
  · exact Nat.zero_le _
  · exact Nat.pow_le_pow_right (by omega) (by have := stripTwos_le k; omega)

lemma scrachLength_eq_zero_iff (k : ℕ) (h0 : k ≠ 0) :
    scrachLength k = 0 ↔ stripTwos k = 1 := by
  have hmod := stripTwos_mod_two k h0
  simp only [scrachLength]
  rw [if_neg h0]
  constructor
  · intro h
    split_ifs at h with h1
    · omega
    · exact absurd h (by positivity)
  · intro h
    simp [h]

/-! Twiddle-factor algebra. -/

lemma w_add (N a b : ℕ) : w N (a + b) = w N a * w N b := by
  unfold w
  rw [← Complex.exp_add]
  congr 1
  push_cast
  ring

lemma w_zero (N : ℕ) : w N 0 = 1 := by
  unfold w
  simp

lemma w_period (N e t : ℕ) (hN : N ≠ 0) : w N (e + N * t) = w N e := by
  rw [w_add]
  have h1 : w N (N * t) = 1 := by
    unfold w
    have hNz : (N : ℂ) ≠ 0 := Nat.cast_ne_zero.mpr hN
    have h2 : -2 * (Real.pi : ℂ) * Complex.I * ((N * t : ℕ) : ℂ) / (N : ℂ)
        = ((-t : ℤ) : ℂ) * (2 * (Real.pi : ℂ) * Complex.I) := by
      push_cast
      field_simp
      ring
    rw [h2, Complex.exp_int_mul_two_pi_mul_I]
  rw [h1, mul_one]

lemma w_scale (c N e : ℕ) (hc : c ≠ 0) (hN : N ≠ 0) : w (c * N) (c * e) = w N e := by
  unfold w
  congr 1
  have hcz : (c : ℂ) ≠ 0 := Nat.cast_ne_zero.mpr hc
  have hNz : (N : ℂ) ≠ 0 := Nat.cast_ne_zero.mpr hN
  push_cast
  field_simp
  ring

lemma w_two_one : w 2 1 = -1 := by
  unfold w
  have h : -2 * (Real.pi : ℂ) * Complex.I * ((1 : ℕ) : ℂ) / ((2 : ℕ) : ℂ)
      = -((Real.pi : ℂ) * Complex.I) := by
    push_cast
    ring
  rw [h, Complex.exp_neg, Complex.exp_pi_mul_I]
  norm_num

/-- Exponent decomposition used on the even-power path: `N = n0·n0`, output
index `n0·s + t`, input index `r·n0 + b`. -/
lemma w_even_split (n0 s t r b : ℕ) (h : n0 ≠ 0) :
    w (n0 * n0) ((n0 * s + t) * (r * n0 + b))
      = w n0 (s * b) * w n0 (t * r) * w (n0 * n0) (t * b) := by
  have hNN : n0 * n0 ≠ 0 := Nat.mul_ne_zero h h
  have he : (n0 * s + t) * (r * n0 + b)
      = (t * b + n0 * (s * b) + n0 * (t * r)) + (n0 * n0) * (s * r) := by ring
  rw [he, w_period _ _ _ hNN, w_add, w_add, w_scale n0 n0 (s * b) h h,
    w_scale n0 n0 (t * r) h h]
  ring

/-- Exponent decomposition used on the odd-power path: `N = n0·(2·n0)`, output
index `n0·s + t`, input index `r·(2·n0) + c`. -/
lemma w_odd_split (n0 s t r c : ℕ) (h : n0 ≠ 0) :
    w (n0 * (2 * n0)) ((n0 * s + t) * (r * (2 * n0) + c))
      = w (2 * n0) (s * c) * w n0 (t * r) * w (n0 * (2 * n0)) (t * c) := by
  have h2 : 2 * n0 ≠ 0 := by omega
  have hNN : n0 * (2 * n0) ≠ 0 := Nat.mul_ne_zero h h2
  have he : (n0 * s + t) * (r * (2 * n0) + c)
      = (t * c + n0 * (s * c) + (2 * n0) * (t * r)) + (n0 * (2 * n0)) * (s * r) := by
    ring
  rw [he, w_period _ _ _ hNN, w_add, w_add, w_scale n0 (2 * n0) (s * c) h h2,
    show n0 * (2 * n0) = (2 * n0) * n0 by ring, w_scale (2 * n0) n0 (t * r) h2 h]
  ring

/-! Sum reindexing helpers and basic DFT values. -/

lemma sum_range_add_split (M B : ℕ) (f : ℕ → ℂ) :
    ∑ m ∈ Finset.range (M + B), f m
      = ∑ m ∈ Finset.range M, f m + ∑ c ∈ Finset.range B, f (M + c) := by
  induction B with
  | zero => simp
  | succ B ih =>
    rw [show M + (B + 1) = (M + B) + 1 by ring, Finset.sum_range_succ, ih,
      Finset.sum_range_succ]
    ring

lemma sum_range_mul_split (A B : ℕ) (f : ℕ → ℂ) :
    ∑ m ∈ Finset.range (A * B), f m
      = ∑ r ∈ Finset.range A, ∑ c ∈ Finset.range B, f (r * B + c) := by
  induction A with
  | zero => simp
  | succ A ih =>
    rw [show (A + 1) * B = A * B + B by ring, sum_range_add_split, ih,
      Finset.sum_range_succ]

lemma dftN_congr (N : ℕ) (x y : ℕ → ℂ) (h : ∀ m, m < N → x m = y m) (t : ℕ) :
    dftN N x t = dftN N y t := by
  unfold dftN
  exact Finset.sum_congr rfl (fun m hm => by rw [h m (Finset.mem_range.mp hm)])

lemma dftN_one (x : ℕ → ℂ) : dftN 1 x 0 = x 0 := by
  unfold dftN
  simp [w_zero]

lemma dftN_two_zero (x : ℕ → ℂ) : dftN 2 x 0 = x 0 + x 1 := by
  unfold dftN
  rw [Finset.sum_range_succ, Finset.sum_range_succ, Finset.sum_range_zero]
  simp [w_zero]

lemma dftN_two_one (x : ℕ → ℂ) : dftN 2 x 1 = x 0 - x 1 := by
  unfold dftN
  rw [Finset.sum_range_succ, Finset.sum_range_succ, Finset.sum_range_zero]
  norm_num [w_zero, w_two_one]
  ring

/-! Correctness of the interleave/deinterleave loops: the loop with its
read-after-write ordering computes the intended permutation. -/

section InterleaveSpec

variable {α : Type*}

lemma interLoop_spec (h : ℕ) (s x : ℕ → α) :
    ∀ i, i ≤ h → ∀ j, interLoop h s i x j =
      if j < 2 * i then (if j % 2 = 0 then s (j / 2) else x (h + j / 2)) else x j := by
  intro i
  induction i with
  | zero =>
    intro _ j
    simp [interLoop]
  | succ i ih =>
    intro hi j
    have ih2 := ih (by omega)
    simp only [interLoop, Function.update_apply]
    rw [ih2 (h + i), if_neg (show ¬ (h + i < 2 * i) by omega), ih2 j]
    split_ifs <;> first | rfl | (congr 1; omega) | omega

lemma deinterLoop_spec (x s : ℕ → α) (i : ℕ) :
    (∀ j, (deinterLoop i (x, s)).1 j = if j < i then x (2 * j) else x j) ∧
    (∀ j, (deinterLoop i (x, s)).2 j = if j < i then x (2 * j + 1) else s j) := by
  induction i with
  | zero =>
    constructor <;> intro j <;> simp [deinterLoop]
  | succ i ih =>
    obtain ⟨ih1, ih2⟩ := ih
    constructor <;> intro j
    · simp only [deinterLoop, Function.update_apply]
      rw [ih1 (2 * i), if_neg (show ¬ (2 * i < i) by omega), ih1 j]
      split_ifs <;> first | rfl | (congr 1; omega) | omega
    · simp only [deinterLoop, Function.update_apply]
      rw [ih1 (2 * i), ih1 (2 * i + 1), ih2 j]
      split_ifs <;> first | rfl | (congr 1; omega) | omega

lemma interleaveOp_spec (n L : ℕ) (x s : ℕ → α) (hn : n % 2 = 0) (hL : n / 2 ≤ L) :
    ∃ x1 s1, interleaveOp n x (some (s, L)) = some (x1, (s1, L)) ∧
      ∀ j, j < n → x1 j = if j % 2 = 0 then x (j / 2) else x (n / 2 + j / 2) := by
  simp only [interleaveOp, if_pos (And.intro hn hL)]
  refine ⟨_, _, rfl, ?_⟩
  intro j hj
  rw [interLoop_spec _ _ _ (n / 2) le_rfl j, if_pos (show j < 2 * (n / 2) by omega)]
  split_ifs <;> first | rfl | omega

lemma deinterleaveOp_spec (n L : ℕ) (x s : ℕ → α) (hn : n % 2 = 0) (hL : n / 2 ≤ L) :
    ∃ x1 s1, deinterleaveOp n x (some (s, L)) = some (x1, (s1, L)) ∧
      ∀ j, j < n → x1 j = if j < n / 2 then x (2 * j) else x (2 * (j - n / 2) + 1) := by
  simp only [deinterleaveOp, if_pos (And.intro hn hL)]
  refine ⟨_, _, rfl, ?_⟩
  intro j hj
  obtain ⟨d1, d2⟩ := deinterLoop_spec x s (n / 2)
  by_cases hc : n / 2 ≤ j ∧ j < 2 * (n / 2)
  · rw [if_pos hc, d2 (j - n / 2), if_pos (show j - n / 2 < n / 2 by omega),
      if_neg (show ¬ (j < n / 2) by omega)]
  · rw [if_neg hc, d1 j, if_pos (show j < n / 2 by omega),
      if_pos (show j < n / 2 by omega)]

end InterleaveSpec

/-! Correctness of the recursive in-place transpose. -/

section TransposeSpec

variable {β : Type*}

lemma swapT_spec (k : ℕ) : ∀ (a b : ℕ → ℕ → β) (i j : ℕ), i < 2 ^ k → j < 2 ^ k →
    (swapT (2 ^ k) a b).1 i j = b j i ∧ (swapT (2 ^ k) a b).2 i j = a j i := by
  induction k with
  | zero =>
    intro a b i j hi hj
    simp only [pow_zero] at hi hj
    have hi0 : i = 0 := by omega
    have hj0 : j = 0 := by omega
    subst hi0
    subst hj0
    rw [swapT]
    norm_num
  | succ k ih =>
    intro a b i j hi hj
    have hone : (1 : ℕ) ≤ 2 ^ k := Nat.one_le_two_pow
    have h2 : (2 : ℕ) ^ (k + 1) = 2 * 2 ^ k := by rw [pow_succ]; ring
    have hne0 : (2 : ℕ) ^ (k + 1) ≠ 0 := by omega
    have hne1 : (2 : ℕ) ^ (k + 1) ≠ 1 := by omega
    have hh : 2 ^ (k + 1) / 2 = 2 ^ k := by omega
    rw [swapT, if_neg hne0, if_neg hne1]
    simp only [hh, quad]
    constructor
    · by_cases hik : i < 2 ^ k <;> by_cases hjk : j < 2 ^ k
      · rw [if_pos hik, if_pos hjk, (ih _ _ i j hik hjk).1]
      · rw [if_pos hik, if_neg hjk, (ih _ _ i (j - 2 ^ k) hik (by omega)).1]
        show b (2 ^ k + (j - 2 ^ k)) i = b j i
        rw [show 2 ^ k + (j - 2 ^ k) = j by omega]
      · rw [if_neg hik, if_pos hjk, (ih _ _ (i - 2 ^ k) j (by omega) hjk).1]
        show b j (2 ^ k + (i - 2 ^ k)) = b j i
        rw [show 2 ^ k + (i - 2 ^ k) = i by omega]
      · rw [if_neg hik, if_neg hjk,
          (ih _ _ (i - 2 ^ k) (j - 2 ^ k) (by omega) (by omega)).1]
        show b (2 ^ k + (j - 2 ^ k)) (2 ^ k + (i - 2 ^ k)) = b j i
        rw [show 2 ^ k + (j - 2 ^ k) = j by omega,
          show 2 ^ k + (i - 2 ^ k) = i by omega]
    · by_cases hik : i < 2 ^ k <;> by_cases hjk : j < 2 ^ k
      · rw [if_pos hik, if_pos hjk, (ih _ _ i j hik hjk).2]
      · rw [if_pos hik, if_neg hjk, (ih _ _ i (j - 2 ^ k) hik (by omega)).2]
        show a (2 ^ k + (j - 2 ^ k)) i = a j i
        rw [show 2 ^ k + (j - 2 ^ k) = j by omega]
      · rw [if_neg hik, if_pos hjk, (ih _ _ (i - 2 ^ k) j (by omega) hjk).2]
        show a j (2 ^ k + (i - 2 ^ k)) = a j i
        rw [show 2 ^ k + (i - 2 ^ k) = i by omega]
      · rw [if_neg hik, if_neg hjk,
          (ih _ _ (i - 2 ^ k) (j - 2 ^ k) (by omega) (by omega)).2]
        show a (2 ^ k + (j - 2 ^ k)) (2 ^ k + (i - 2 ^ k)) = a j i
        rw [show 2 ^ k + (j - 2 ^ k) = j by omega,
          show 2 ^ k + (i - 2 ^ k) = i by omega]

lemma transposeSquare_pow_spec (k : ℕ) : ∀ (a : ℕ → ℕ → β),
    ∃ t, transposeSquare (2 ^ k) a = some t ∧
      ∀ i j, i < 2 ^ k → j < 2 ^ k → t i j = a j i := by
  induction k with
  | zero =>
    intro a
    refine ⟨a, ?_, ?_⟩
    · rw [transposeSquare, lb_exact_pow 0]
      norm_num [Option.some_bind]
    · intro i j hi hj
      simp only [pow_zero] at hi hj
      have hi0 : i = 0 := by omega
      have hj0 : j = 0 := by omega
      subst hi0
      subst hj0
      rfl
  | succ k ih =>
    intro a
    have hone : (1 : ℕ) ≤ 2 ^ k := Nat.one_le_two_pow
    have h2 : (2 : ℕ) ^ (k + 1) = 2 * 2 ^ k := by rw [pow_succ]; ring
    have hgt : ¬ (2 ^ (k + 1) ≤ 1) := by omega
    have hh : 2 ^ (k + 1) / 2 = 2 ^ k := by omega
    obtain ⟨tl, htl, htlspec⟩ := ih (fun i j => a i j)
    obtain ⟨br, hbr, hbrspec⟩ := ih (fun i j => a (2 ^ k + i) (2 ^ k + j))
    refine ⟨quad (2 ^ k) tl
      (swapT (2 ^ k) (fun i j => a i (2 ^ k + j)) (fun i j => a (2 ^ k + i) j)).1
      (swapT (2 ^ k) (fun i j => a i (2 ^ k + j)) (fun i j => a (2 ^ k + i) j)).2
      br, ?_, ?_⟩
    · rw [transposeSquare, lb_exact_pow (k + 1)]
      simp only [Option.some_bind, hh, if_neg hgt, htl, hbr, Option.map_some']
    · intro i j hi hj
      simp only [quad]
      by_cases hik : i < 2 ^ k <;> by_cases hjk : j < 2 ^ k
      · rw [if_pos hik, if_pos hjk, htlspec i j hik hjk]
      · rw [if_pos hik, if_neg hjk,
          (swapT_spec k (fun i j => a i (2 ^ k + j)) (fun i j => a (2 ^ k + i) j)
            i (j - 2 ^ k) hik (by omega)).1]
        show a (2 ^ k + (j - 2 ^ k)) i = a j i
        rw [show 2 ^ k + (j - 2 ^ k) = j by omega]
      · rw [if_neg hik, if_pos hjk,
          (swapT_spec k (fun i j => a i (2 ^ k + j)) (fun i j => a (2 ^ k + i) j)
            (i - 2 ^ k) j (by omega) hjk).2]
        show a j (2 ^ k + (i - 2 ^ k)) = a j i
        rw [show 2 ^ k + (i - 2 ^ k) = i by omega]
      · rw [if_neg hik, if_neg hjk, hbrspec (i - 2 ^ k) (j - 2 ^ k) (by omega) (by omega)]
        show a (2 ^ k + (j - 2 ^ k)) (2 ^ k + (i - 2 ^ k)) = a j i
        rw [show 2 ^ k + (j - 2 ^ k) = j by omega,
          show 2 ^ k + (i - 2 ^ k) = i by omega]

lemma lb_exact_zero_nat : lb_exact ((0 : ℕ) : ℤ) = none := by
  rw [Nat.cast_zero]
  exact lb_exact_nonpos 0 le_rfl

lemma lb_exact_one_nat : lb_exact ((1 : ℕ) : ℤ) = some 0 := by
  have h := lb_exact_pow 0
  norm_num at h
  exact_mod_cast h

lemma transposeSquare_zero (a : ℕ → ℕ → β) : transposeSquare 0 a = none := by
  rw [transposeSquare, lb_exact_zero_nat]
  rfl

lemma transposeSquare_one (a : ℕ → ℕ → β) : transposeSquare 1 a = some a := by
  rw [transposeSquare, lb_exact_one_nat]
  norm_num [Option.some_bind]

end TransposeSpec

/-! The generic row-loop lemma: if the per-row body succeeds on every row,
preserving the scratch length, and rewrites the row (on the row width) by a
function of the previous row contents, then the whole loop succeeds and every
row `r < n` is rewritten accordingly, later rows being untouched. -/

lemma rowsM_spec {β : Type*} (f : ℕ → (ℕ → β) → Scratch → Option ((ℕ → β) × Scratch))
    (g : ℕ → (ℕ → β) → ℕ → β) (width L : ℕ)
    (hf : ∀ i (row : ℕ → β) (scr : Scratch), scrLenOf scr = L →
      ∃ row1 scr1, f i row scr = some (row1, scr1) ∧ scrLenOf scr1 = L ∧
        ∀ c, c < width → row1 c = g i row c) :
    ∀ (n : ℕ) (M : ℕ → ℕ → β) (scr : Scratch), scrLenOf scr = L →
      ∃ M1 scr1, rowsM f n M scr = some (M1, scr1) ∧ scrLenOf scr1 = L ∧
        (∀ r, r < n → ∀ c, c < width → M1 r c = g r (M r) c) ∧
        (∀ r, n ≤ r → M1 r = M r) := by
  intro n
  induction n with
  | zero =>
    intro M scr hscr
    exact ⟨M, scr, rfl, hscr, fun r hr => absurd hr (Nat.not_lt_zero r), fun r _ => rfl⟩
  | succ n ih =>
    intro M scr hscr
    obtain ⟨M1, s1, hM1, hs1, hchar, hrest⟩ := ih M scr hscr
    obtain ⟨row1, s2, hrow, hs2, hrowchar⟩ := hf n (M1 n) s1 hs1
    refine ⟨setRow M1 n row1, s2, ?_, hs2, ?_, ?_⟩
    · simp only [rowsM, hM1, Option.some_bind, hrow, Option.map_some']
    · intro r hr c hc
      by_cases hrn : r = n
      · subst hrn
        have hst : setRow M1 r row1 r c = row1 c := by simp [setRow]
        rw [hst, hrowchar c hc, hrest r le_rfl]
      · have hrlt : r < n := by omega
        simp only [setRow, if_neg hrn]
        exact hchar r hrlt c hc
    · intro r hr
      funext c
      simp only [setRow, if_neg (show ¬ r = n by omega)]
      exact congrFun (hrest r (by omega)) c

/-! Small arithmetic bridges for the bit operations of the source. -/

lemma one_shiftLeft_half (k : ℕ) : 1 <<< (k >>> 1) = 2 ^ (k / 2) := by
  rw [Nat.one_shiftLeft, Nat.shiftRight_eq_div_pow]

lemma shiftLeft_one (m : ℕ) : m <<< 1 = 2 * m := by
  rw [Nat.shiftLeft_eq]
  ring

lemma and_one_ne_iff (k : ℕ) : (k &&& 1 ≠ 0) ↔ k % 2 = 1 := by
  rw [Nat.and_one_is_mod]
  omega

/-! Correctness of the even-power path.  `k = K + K`, the buffer is viewed as
a `2^K × 2^K` matrix; transpose, FFT+twiddle each row, transpose, FFT each
row, transpose. -/

lemma fftEvenpow_correct (k K : ℕ)
    (rec : ℕ → (ℕ → ℂ) → Scratch → Option ((ℕ → ℂ) × Scratch))
    (hk : k = K + K) (hK : 1 ≤ K)
    (hrec : ∀ (x : ℕ → ℂ) (scr : Scratch), scrachLength K ≤ scrLenOf scr →
      ∃ y scr1, rec (2 ^ K) x scr = some (y, scr1) ∧ scrLenOf scr1 = scrLenOf scr ∧
        ∀ t, t < 2 ^ K → y t = dftN (2 ^ K) x t) :
    ∀ (x : ℕ → ℂ) (scr : Scratch), scrachLength k ≤ scrLenOf scr →
      ∃ y scr1, fftEvenpow rec (2 ^ k) x scr = some (y, scr1) ∧
        scrLenOf scr1 = scrLenOf scr ∧
        ∀ t, t < 2 ^ k → y t = dftN (2 ^ k) x t := by
  intro x scr hscr
  have hn0pos : (0 : ℕ) < 2 ^ K := by positivity
  have hKk2 : k / 2 = K := by omega
  have hkk : (2 : ℕ) ^ k = 2 ^ K * 2 ^ K := by rw [hk, pow_add]
  have hsK : scrachLength K ≤ scrLenOf scr := by
    have he := scrachLength_even k (by omega) (by omega)
    rw [he, hKk2] at hscr
    exact hscr
  have hf1 : ∀ i (row : ℕ → ℂ) (scr2 : Scratch), scrLenOf scr2 = scrLenOf scr →
      ∃ row1 scr1, evenRowPass1 rec (2 ^ k) (2 ^ K) i row scr2 = some (row1, scr1) ∧
        scrLenOf scr1 = scrLenOf scr ∧
        ∀ c, c < 2 ^ K → row1 c = dftN (2 ^ K) row c * w (2 ^ k) (i * c) := by
    intro i row scr2 hscr2
    obtain ⟨y, scr3, hy, hlen, hchar⟩ := hrec row scr2 (by rw [hscr2]; exact hsK)
    refine ⟨fun j => if j < 2 ^ K then y j * w (2 ^ k) (i * j) else y j, scr3, ?_,
      by rw [hlen, hscr2], ?_⟩
    · rw [evenRowPass1, hy, Option.map_some']
    · intro c hc
      show (if c < 2 ^ K then y c * w (2 ^ k) (i * c) else y c)
        = dftN (2 ^ K) row c * w (2 ^ k) (i * c)
      rw [if_pos hc, hchar c hc]
  have hf2 : ∀ i (row : ℕ → ℂ) (scr2 : Scratch), scrLenOf scr2 = scrLenOf scr →
      ∃ row1 scr1, plainRowPass rec (2 ^ K) i row scr2 = some (row1, scr1) ∧
        scrLenOf scr1 = scrLenOf scr ∧
        ∀ c, c < 2 ^ K → row1 c = dftN (2 ^ K) row c := by
    intro i row scr2 hscr2
    obtain ⟨y, scr3, hy, hlen, hchar⟩ := hrec row scr2 (by rw [hscr2]; exact hsK)
    exact ⟨y, scr3, hy, by rw [hlen, hscr2], hchar⟩
  obtain ⟨m1, hm1eq, hm1spec⟩ := transposeSquare_pow_spec K (toMat (2 ^ K) x)
  obtain ⟨m2, scr2, hm2eq, hscr2, hm2char, hm2rest⟩ :=
    rowsM_spec (evenRowPass1 rec (2 ^ k) (2 ^ K))
      (fun i row c => dftN (2 ^ K) row c * w (2 ^ k) (i * c)) (2 ^ K) (scrLenOf scr)
      hf1 (2 ^ K) m1 scr rfl
  obtain ⟨m3, hm3eq, hm3spec⟩ := transposeSquare_pow_spec K m2
  obtain ⟨m4, scr4, hm4eq, hscr4, hm4char, hm4rest⟩ :=
    rowsM_spec (plainRowPass rec (2 ^ K))
      (fun _ row c => dftN (2 ^ K) row c) (2 ^ K) (scrLenOf scr)
      hf2 (2 ^ K) m3 scr2 hscr2
  obtain ⟨m5, hm5eq, hm5spec⟩ := transposeSquare_pow_spec K m4
  refine ⟨ofMat (2 ^ K) m5, scr4, ?_, hscr4, ?_⟩
  · rw [fftEvenpow, lb_exact_pow k]
    simp only [Option.some_bind, one_shiftLeft_half, hKk2, if_pos hkk.symm, hm1eq,
      hm2eq, hm3eq, hm4eq, hm5eq, Option.map_some']
  · intro p hp
    have hppos : p < 2 ^ K * 2 ^ K := by rwa [hkk] at hp
    obtain ⟨s, t, hp2, hs, ht⟩ : ∃ s t, p = 2 ^ K * s + t ∧ s < 2 ^ K ∧ t < 2 ^ K :=
      ⟨p / 2 ^ K, p % 2 ^ K, (Nat.div_add_mod p (2 ^ K)).symm,
        Nat.div_lt_of_lt_mul hppos, Nat.mod_lt _ hn0pos⟩
    subst hp2
    have hdiv : (2 ^ K * s + t) / 2 ^ K = s := by
      rw [Nat.add_comm, Nat.add_mul_div_left _ _ hn0pos, Nat.div_eq_of_lt ht,
        Nat.zero_add]
    have hmod : (2 ^ K * s + t) % 2 ^ K = t := by
      rw [Nat.add_comm, Nat.add_mul_mod_self_left, Nat.mod_eq_of_lt ht]
    have hm1x : ∀ b, b < 2 ^ K → dftN (2 ^ K) (m1 b) t
        = ∑ r ∈ Finset.range (2 ^ K), x (r * 2 ^ K + b) * w (2 ^ K) (t * r) := by
      intro b hb
      have hcg := dftN_congr (2 ^ K) (m1 b) (fun r => x (r * 2 ^ K + b))
        (fun r hr => by rw [hm1spec b r hb hr]; rfl) t
      rw [hcg]
      rfl
    have hy : ofMat (2 ^ K) m5 (2 ^ K * s + t) = m4 t s := by
      unfold ofMat
      rw [hdiv, hmod]
      exact hm5spec s t hs ht
    rw [hy, hm4char t ht s hs]
    calc dftN (2 ^ K) (m3 t) s
        = ∑ b ∈ Finset.range (2 ^ K),
            (∑ r ∈ Finset.range (2 ^ K), x (r * 2 ^ K + b) * w (2 ^ K) (t * r))
              * (w (2 ^ K * 2 ^ K) (b * t) * w (2 ^ K) (s * b)) := by
          unfold dftN
          refine Finset.sum_congr rfl (fun b hb => ?_)
          have hbK := Finset.mem_range.mp hb
          rw [hm3spec t b ht hbK, hm2char b hbK t ht, hm1x b hbK, hkk]
          ring
      _ = ∑ b ∈ Finset.range (2 ^ K), ∑ r ∈ Finset.range (2 ^ K),
            x (r * 2 ^ K + b)
              * (w (2 ^ K) (s * b) * w (2 ^ K) (t * r) * w (2 ^ K * 2 ^ K) (t * b)) := by
          refine Finset.sum_congr rfl (fun b hb => ?_)
          rw [Finset.sum_mul]
          refine Finset.sum_congr rfl (fun r hr => ?_)
          rw [show b * t = t * b from Nat.mul_comm b t]
          ring
      _ = ∑ r ∈ Finset.range (2 ^ K), ∑ b ∈ Finset.range (2 ^ K),
            x (r * 2 ^ K + b)
              * (w (2 ^ K) (s * b) * w (2 ^ K) (t * r) * w (2 ^ K * 2 ^ K) (t * b)) :=
          Finset.sum_comm
      _ = dftN (2 ^ k) x (2 ^ K * s + t) := by
          unfold dftN
          rw [hkk, sum_range_mul_split]
          refine Finset.sum_congr rfl (fun r hr => Finset.sum_congr rfl (fun b hb => ?_))
          rw [w_even_split (2 ^ K) s t r b (show (2 : ℕ) ^ K ≠ 0 by positivity)]

/-! Helpers for the odd-power path. -/

lemma scratch_eq_some (scr : Scratch) (L : ℕ) (hL : scrLenOf scr = L) (hpos : 0 < L) :
    ∃ s, scr = some (s, L) := by
  cases scr with
  | none =>
    simp only [scrLenOf] at hL
    omega
  | some p =>
    simp only [scrLenOf] at hL
    exact ⟨p.1, by rw [← hL]⟩

lemma pairRowFlat_even (row : ℕ → ℂ × ℂ) (u : ℕ) : pairRowFlat row (2 * u) = (row u).1 := by
  unfold pairRowFlat
  rw [if_pos (by omega : (2 * u) % 2 = 0), show (2 * u) / 2 = u by omega]

lemma pairRowFlat_odd (row : ℕ → ℂ × ℂ) (u : ℕ) :
    pairRowFlat row (2 * u + 1) = (row u).2 := by
  unfold pairRowFlat
  rw [if_neg (by omega : ¬ ((2 * u + 1) % 2 = 0)), show (2 * u + 1) / 2 = u by omega]

/-- The final deinterleaving loop body of the odd path restores, on each row
of pairs, the order `first components of both halves, then second
components`. -/
lemma oddRowPass3_spec (K L : ℕ) (hL : 2 ^ K ≤ L) :
    ∀ (i : ℕ) (rowPair : ℕ → ℂ × ℂ) (scr2 : Scratch), scrLenOf scr2 = L →
      ∃ row1 scr1, oddRowPass3 (2 * 2 ^ K) i rowPair scr2 = some (row1, scr1) ∧
        scrLenOf scr1 = L ∧
        ∀ q, q < 2 ^ K → row1 q =
          ((if 2 * q < 2 ^ K then (rowPair (2 * q)).1 else (rowPair (2 * q - 2 ^ K)).2),
           (if 2 * q + 1 < 2 ^ K then (rowPair (2 * q + 1)).1
            else (rowPair (2 * q + 1 - 2 ^ K)).2)) := by
  intro i rowPair scr2 hscr2
  obtain ⟨s0, rfl⟩ := scratch_eq_some scr2 L hscr2
    (by have h1 : 1 ≤ 2 ^ K := Nat.one_le_two_pow; omega)
  obtain ⟨d, s1, hdeq, hdchar⟩ := deinterleaveOp_spec (2 * 2 ^ K) L (pairRowFlat rowPair) s0
    (by omega) (by omega)
  have hdd : ∀ j, j < 2 * 2 ^ K → d j =
      if j < 2 ^ K then (rowPair j).1 else (rowPair (j - 2 ^ K)).2 := by
    intro j hj
    rw [hdchar j hj]
    by_cases hjh : j < 2 ^ K
    · rw [if_pos (by omega : j < (2 * 2 ^ K) / 2), if_pos hjh, pairRowFlat_even]
    · rw [if_neg (by omega : ¬ (j < (2 * 2 ^ K) / 2)), if_neg hjh,
        show 2 * (j - (2 * 2 ^ K) / 2) + 1 = 2 * (j - 2 ^ K) + 1 by omega,
        pairRowFlat_odd]
  refine ⟨pairRowUnflat d, some (s1, L), ?_, rfl, ?_⟩
  · rw [oddRowPass3, hdeq, Option.map_some']
  · intro q hq
    unfold pairRowUnflat
    rw [hdd (2 * q) (by omega), hdd (2 * q + 1) (by omega)]

/-- The second odd-path loop body FFTs each flattened row of pairs whole. -/
lemma oddRowPass2_spec (K L : ℕ) (rec : ℕ → (ℕ → ℂ) → Scratch → Option ((ℕ → ℂ) × Scratch))
    (hrecR2 : ∀ (v : ℕ → ℂ) (scr : Scratch), scrachLength (K + 1) ≤ scrLenOf scr →
      ∃ y scr1, rec (2 * 2 ^ K) v scr = some (y, scr1) ∧ scrLenOf scr1 = scrLenOf scr ∧
        ∀ t, t < 2 * 2 ^ K → y t = dftN (2 * 2 ^ K) v t)
    (hscrK1 : scrachLength (K + 1) ≤ L) :
    ∀ (i : ℕ) (rowPair : ℕ → ℂ × ℂ) (scr2 : Scratch), scrLenOf scr2 = L →
      ∃ row1 scr1, oddRowPass2 rec (2 * 2 ^ K) i rowPair scr2 = some (row1, scr1) ∧
        scrLenOf scr1 = L ∧
        ∀ c, c < 2 ^ K → row1 c =
          (dftN (2 * 2 ^ K) (pairRowFlat rowPair) (2 * c),
           dftN (2 * 2 ^ K) (pairRowFlat rowPair) (2 * c + 1)) := by
  intro i rowPair scr2 hscr2
  obtain ⟨y, scr3, hy, hlen, hchar⟩ := hrecR2 (pairRowFlat rowPair) scr2 (by omega)
  refine ⟨pairRowUnflat y, scr3, ?_, by omega, ?_⟩
  · rw [oddRowPass2, hy, Option.map_some']
  · intro c hc
    unfold pairRowUnflat
    rw [hchar (2 * c) (by omega), hchar (2 * c + 1) (by omega)]

/-- The first odd-path loop body: on each transposed row of pairs, it computes
the two column DFTs of that row pair, multiplied by their twiddle factors. -/
lemma oddRowPass1_spec (vecLen K L : ℕ)
    (rec : ℕ → (ℕ → ℂ) → Scratch → Option ((ℕ → ℂ) × Scratch))
    (hL : 2 ^ K ≤ L)
    (hrecK : ∀ (v : ℕ → ℂ) (scr : Scratch), scrachLength K ≤ scrLenOf scr →
      ∃ y scr1, rec (2 ^ K) v scr = some (y, scr1) ∧ scrLenOf scr1 = scrLenOf scr ∧
        ∀ t, t < 2 ^ K → y t = dftN (2 ^ K) v t)
    (hscrK : scrachLength K ≤ L) :
    ∀ (i : ℕ) (rowPair : ℕ → ℂ × ℂ) (scr2 : Scratch), scrLenOf scr2 = L →
      ∃ row1 scr1, oddRowPass1 rec vecLen (2 ^ K) (2 * 2 ^ K) i rowPair scr2
          = some (row1, scr1) ∧ scrLenOf scr1 = L ∧
        ∀ c, c < 2 ^ K → row1 c =
          (dftN (2 ^ K) (fun u => (rowPair u).1) c * w vecLen (2 * i * c),
           dftN (2 ^ K) (fun u => (rowPair u).2) c * w vecLen ((2 * i + 1) * c)) := by
  intro i rowPair scr2 hscr2
  have h1 : (1 : ℕ) ≤ 2 ^ K := Nat.one_le_two_pow
  obtain ⟨s0, rfl⟩ := scratch_eq_some scr2 L hscr2 (by omega)
  obtain ⟨v1, s1, hdeq, hdchar⟩ := deinterleaveOp_spec (2 * 2 ^ K) L
    (pairRowFlat rowPair) s0 (by omega) (by omega)
  have hv1a : ∀ u, u < 2 ^ K → v1 u = (rowPair u).1 := by
    intro u hu
    rw [hdchar u (by omega), if_pos (by omega : u < (2 * 2 ^ K) / 2), pairRowFlat_even]
  have hv1b : ∀ u, u < 2 ^ K → v1 (2 ^ K + u) = (rowPair u).2 := by
    intro u hu
    rw [hdchar (2 ^ K + u) (by omega),
      if_neg (by omega : ¬ (2 ^ K + u < (2 * 2 ^ K) / 2)),
      show 2 * (2 ^ K + u - (2 * 2 ^ K) / 2) + 1 = 2 * u + 1 by omega, pairRowFlat_odd]
  obtain ⟨f0, scr3, hf0eq, hf0len, hf0char⟩ := hrecK v1 (some (s1, L)) hscrK
  have hscr3 : scrLenOf scr3 = L := hf0len
  obtain ⟨f1, scr4, hf1eq, hf1len, hf1char⟩ := hrecK
    (fun j => if 2 ^ K + j < 2 ^ K then f0 (2 ^ K + j) * w vecLen (2 * i * (2 ^ K + j))
      else v1 (2 ^ K + j)) scr3 (by rw [hscr3]; exact hscrK)
  have hscr4 : scrLenOf scr4 = L := by rw [hf1len, hscr3]
  obtain ⟨s4, rfl⟩ := scratch_eq_some scr4 L hscr4 (by omega)
  obtain ⟨v4, s5, hileq, hilchar⟩ := interleaveOp_spec (2 * 2 ^ K) L
    (fun j => if 2 ^ K ≤ j ∧ j < 2 * 2 ^ K
      then f1 (j - 2 ^ K) * w vecLen ((2 * i + 1) * (j - 2 ^ K))
      else if j < 2 ^ K then f0 j * w vecLen (2 * i * j) else v1 j) s4 (by omega) (by omega)
  refine ⟨pairRowUnflat v4, some (s5, L), ?_, rfl, ?_⟩
  · rw [oddRowPass1, hdeq, Option.some_bind]
    simp only [hf0eq, Option.some_bind, hf1eq, hileq, Option.map_some']
  · intro c hc
    have h2c : v4 (2 * c) = f0 c * w vecLen (2 * i * c) := by
      have h := hilchar (2 * c) (by omega)
      rw [if_pos (by omega : (2 * c) % 2 = 0), show (2 * c) / 2 = c by omega] at h
      rw [h]
      show (if 2 ^ K ≤ c ∧ c < 2 * 2 ^ K
          then f1 (c - 2 ^ K) * w vecLen ((2 * i + 1) * (c - 2 ^ K))
          else if c < 2 ^ K then f0 c * w vecLen (2 * i * c) else v1 c)
        = f0 c * w vecLen (2 * i * c)
      rw [if_neg (by omega : ¬ (2 ^ K ≤ c ∧ c < 2 * 2 ^ K)), if_pos hc]
    have h2c1 : v4 (2 * c + 1) = f1 c * w vecLen ((2 * i + 1) * c) := by
      have h := hilchar (2 * c + 1) (by omega)
      rw [if_neg (by omega : ¬ ((2 * c + 1) % 2 = 0)),
        show (2 * 2 ^ K) / 2 + (2 * c + 1) / 2 = 2 ^ K + c by omega] at h
      rw [h]
      show (if 2 ^ K ≤ 2 ^ K + c ∧ 2 ^ K + c < 2 * 2 ^ K
          then f1 (2 ^ K + c - 2 ^ K) * w vecLen ((2 * i + 1) * (2 ^ K + c - 2 ^ K))
          else if 2 ^ K + c < 2 ^ K then f0 (2 ^ K + c) * w vecLen (2 * i * (2 ^ K + c))
          else v1 (2 ^ K + c))
        = f1 c * w vecLen ((2 * i + 1) * c)
      rw [if_pos (show 2 ^ K ≤ 2 ^ K + c ∧ 2 ^ K + c < 2 * 2 ^ K by omega),
        show 2 ^ K + c - 2 ^ K = c by omega]
    unfold pairRowUnflat
    rw [h2c, h2c1, hf0char c hc, hf1char c hc, Prod.mk.injEq]
    constructor
    · rw [dftN_congr (2 ^ K) v1 (fun u => (rowPair u).1) hv1a c]
    · rw [dftN_congr (2 ^ K)
        (fun j => if 2 ^ K + j < 2 ^ K then f0 (2 ^ K + j) * w vecLen (2 * i * (2 ^ K + j))
          else v1 (2 ^ K + j))
        (fun u => (rowPair u).2)
        (fun u hu => by
          show (if 2 ^ K + u < 2 ^ K then f0 (2 ^ K + u) * w vecLen (2 * i * (2 ^ K + u))
              else v1 (2 ^ K + u)) = (rowPair u).2
          rw [if_neg (by omega : ¬ (2 ^ K + u < 2 ^ K))]
          exact hv1b u hu) c]

/-! Correctness of the odd-power path.  `k = 2K + 1`, the buffer is viewed as
a `2^K × 2^K` matrix of pairs. -/

lemma fftOddpow_correct (k K : ℕ)
    (rec : ℕ → (ℕ → ℂ) → Scratch → Option ((ℕ → ℂ) × Scratch))
    (hk : k = K + K + 1) (hK : 1 ≤ K)
    (hrecK : ∀ (v : ℕ → ℂ) (scr : Scratch), scrachLength K ≤ scrLenOf scr →
      ∃ y scr1, rec (2 ^ K) v scr = some (y, scr1) ∧ scrLenOf scr1 = scrLenOf scr ∧
        ∀ t, t < 2 ^ K → y t = dftN (2 ^ K) v t)
    (hrecK1 : ∀ (v : ℕ → ℂ) (scr : Scratch), scrachLength (K + 1) ≤ scrLenOf scr →
      ∃ y scr1, rec (2 ^ (K + 1)) v scr = some (y, scr1) ∧ scrLenOf scr1 = scrLenOf scr ∧
        ∀ t, t < 2 ^ (K + 1) → y t = dftN (2 ^ (K + 1)) v t) :
    ∀ (x : ℕ → ℂ) (scr : Scratch), scrachLength k ≤ scrLenOf scr →
      ∃ y scr1, fftOddpow rec (2 ^ k) x scr = some (y, scr1) ∧
        scrLenOf scr1 = scrLenOf scr ∧
        ∀ t, t < 2 ^ k → y t = dftN (2 ^ k) x t := by
  intro x scr hscr
  have h1 : (1 : ℕ) ≤ 2 ^ K := Nat.one_le_two_pow
  have hKk2 : k / 2 = K := by omega
  have h2K1 : (2 : ℕ) ^ (K + 1) = 2 * 2 ^ K := by rw [pow_succ]; ring
  have hkk : (2 : ℕ) ^ k = 2 ^ K * (2 * 2 ^ K) := by
    rw [hk, show K + K + 1 = K + (K + 1) by ring, pow_add, h2K1]
  have hscrOdd : scrachLength k = 2 ^ K := by
    have ho := scrachLength_odd k (by omega) (by omega)
    rw [ho, hKk2]
  have hn0L : 2 ^ K ≤ scrLenOf scr := by rw [← hscrOdd]; exact hscr
  have hscrK : scrachLength K ≤ scrLenOf scr := by
    have hle := scrachLength_le K
    have hmono : (2 : ℕ) ^ ((K - 1) / 2) ≤ 2 ^ K :=
      Nat.pow_le_pow_right (by omega) (by omega)
    omega
  have hscrK1 : scrachLength (K + 1) ≤ scrLenOf scr := by
    have hle := scrachLength_le (K + 1)
    have hmono : (2 : ℕ) ^ ((K + 1 - 1) / 2) ≤ 2 ^ K :=
      Nat.pow_le_pow_right (by omega) (by omega)
    omega
  have hrecR2 : ∀ (v : ℕ → ℂ) (scr2 : Scratch), scrachLength (K + 1) ≤ scrLenOf scr2 →
      ∃ y scr1, rec (2 * 2 ^ K) v scr2 = some (y, scr1) ∧ scrLenOf scr1 = scrLenOf scr2 ∧
        ∀ t, t < 2 * 2 ^ K → y t = dftN (2 * 2 ^ K) v t := by
    intro v scr2 hs2
    obtain ⟨y, scr3, he, hl, hc⟩ := hrecK1 v scr2 hs2
    rw [h2K1] at he
    refine ⟨y, scr3, he, hl, ?_⟩
    intro t ht
    have hc2 := hc t (by omega)
    rw [h2K1] at hc2
    exact hc2
  obtain ⟨p1, hp1eq, hp1spec⟩ := transposeSquare_pow_spec K (toMatP (2 ^ K) x)
  obtain ⟨p2, scrA, hpass1eq, hscrA, hp2char, hp2rest⟩ :=
    rowsM_spec (oddRowPass1 rec (2 ^ k) (2 ^ K) (2 * 2 ^ K))
      (fun i rowPair c =>
        (dftN (2 ^ K) (fun u => (rowPair u).1) c * w (2 ^ k) (2 * i * c),
         dftN (2 ^ K) (fun u => (rowPair u).2) c * w (2 ^ k) ((2 * i + 1) * c)))
      (2 ^ K) (scrLenOf scr)
      (oddRowPass1_spec (2 ^ k) K (scrLenOf scr) rec hn0L hrecK hscrK)
      (2 ^ K) p1 scr rfl
  obtain ⟨p3, hp3eq, hp3spec⟩ := transposeSquare_pow_spec K p2
  obtain ⟨p4, scrB, hpass2eq, hscrB, hp4char, hp4rest⟩ :=
    rowsM_spec (oddRowPass2 rec (2 * 2 ^ K))
      (fun _ rowPair c =>
        (dftN (2 * 2 ^ K) (pairRowFlat rowPair) (2 * c),
         dftN (2 * 2 ^ K) (pairRowFlat rowPair) (2 * c + 1)))
      (2 ^ K) (scrLenOf scr)
      (oddRowPass2_spec K (scrLenOf scr) rec hrecR2 hscrK1)
      (2 ^ K) p3 scrA hscrA
  obtain ⟨p5, hp5eq, hp5spec⟩ := transposeSquare_pow_spec K p4
  obtain ⟨p6, scrC, hpass3eq, hscrC, hp6char, hp6rest⟩ :=
    rowsM_spec (oddRowPass3 (2 * 2 ^ K))
      (fun _ rowPair q =>
        ((if 2 * q < 2 ^ K then (rowPair (2 * q)).1 else (rowPair (2 * q - 2 ^ K)).2),
         (if 2 * q + 1 < 2 ^ K then (rowPair (2 * q + 1)).1
          else (rowPair (2 * q + 1 - 2 ^ K)).2)))
      (2 ^ K) (scrLenOf scr)
      (oddRowPass3_spec K (scrLenOf scr) hn0L)
      (2 ^ K) p5 scrB hscrB
  refine ⟨ofMatP (2 ^ K) p6, scrC, ?_, hscrC, ?_⟩
  · rw [fftOddpow, lb_exact_pow k]
    have hguard : 2 ^ K * 2 ^ K * 2 = 2 ^ k := by rw [hkk]; ring
    simp only [Option.some_bind, one_shiftLeft_half, hKk2, shiftLeft_one,
      if_pos hguard, hp1eq, hpass1eq, hp3eq, hpass2eq, hp5eq, hpass3eq,
      Option.map_some']
  · intro m hm
    have hmR : m < 2 ^ K * (2 * 2 ^ K) := by rwa [hkk] at hm
    obtain ⟨p, c, hm2, hp, hc⟩ :
        ∃ p c, m = (2 * 2 ^ K) * p + c ∧ p < 2 ^ K ∧ c < 2 * 2 ^ K := by
      refine ⟨m / (2 * 2 ^ K), m % (2 * 2 ^ K), (Nat.div_add_mod m (2 * 2 ^ K)).symm,
        Nat.div_lt_of_lt_mul (lt_of_lt_of_eq hmR (Nat.mul_comm _ _)), Nat.mod_lt _ (by omega)⟩
    subst hm2
    have hdiv : ((2 * 2 ^ K) * p + c) / (2 * 2 ^ K) = p := by
      rw [Nat.add_comm, Nat.add_mul_div_left _ _ (show 0 < 2 * 2 ^ K by omega),
        Nat.div_eq_of_lt hc, Nat.zero_add]
    have hmod : ((2 * 2 ^ K) * p + c) % (2 * 2 ^ K) = c := by
      rw [Nat.add_comm, Nat.add_mul_mod_self_left, Nat.mod_eq_of_lt hc]
    have hp1v1 : ∀ r u, r < 2 ^ K → u < 2 ^ K →
        (p1 r u).1 = x (u * (2 * 2 ^ K) + 2 * r) := by
      intro r u hr hu
      rw [hp1spec r u hr hu]
      rfl
    have hp1v2 : ∀ r u, r < 2 ^ K → u < 2 ^ K →
        (p1 r u).2 = x (u * (2 * 2 ^ K) + (2 * r + 1)) := by
      intro r u hr hu
      rw [hp1spec r u hr hu]
      rfl
    have hp2v1 : ∀ r c2, r < 2 ^ K → c2 < 2 ^ K → (p2 r c2).1 =
        (∑ u ∈ Finset.range (2 ^ K), x (u * (2 * 2 ^ K) + 2 * r) * w (2 ^ K) (c2 * u))
          * w (2 ^ k) (2 * r * c2) := by
      intro r c2 hr hc2
      rw [hp2char r hr c2 hc2]
      show dftN (2 ^ K) (fun u => (p1 r u).1) c2 * w (2 ^ k) (2 * r * c2) = _
      rw [dftN_congr (2 ^ K) (fun u => (p1 r u).1)
        (fun u => x (u * (2 * 2 ^ K) + 2 * r)) (fun u hu => hp1v1 r u hr hu) c2]
      rfl
    have hp2v2 : ∀ r c2, r < 2 ^ K → c2 < 2 ^ K → (p2 r c2).2 =
        (∑ u ∈ Finset.range (2 ^ K),
            x (u * (2 * 2 ^ K) + (2 * r + 1)) * w (2 ^ K) (c2 * u))
          * w (2 ^ k) ((2 * r + 1) * c2) := by
      intro r c2 hr hc2
      rw [hp2char r hr c2 hc2]
      show dftN (2 ^ K) (fun u => (p1 r u).2) c2 * w (2 ^ k) ((2 * r + 1) * c2) = _
      rw [dftN_congr (2 ^ K) (fun u => (p1 r u).2)
        (fun u => x (u * (2 * 2 ^ K) + (2 * r + 1))) (fun u hu => hp1v2 r u hr hu) c2]
      rfl
    have hflat : ∀ j m2, j < 2 ^ K → m2 < 2 * 2 ^ K →
        pairRowFlat (p3 j) m2 =
          (∑ u ∈ Finset.range (2 ^ K), x (u * (2 * 2 ^ K) + m2) * w (2 ^ K) (j * u))
            * w (2 ^ k) (m2 * j) := by
      intro j m2 hj hm2
      unfold pairRowFlat
      by_cases hpar : m2 % 2 = 0
      · rw [if_pos hpar, hp3spec j (m2 / 2) hj (by omega),
          hp2v1 (m2 / 2) j (by omega) hj, show 2 * (m2 / 2) = m2 by omega]
      · rw [if_neg hpar, hp3spec j (m2 / 2) hj (by omega),
          hp2v2 (m2 / 2) j (by omega) hj, show 2 * (m2 / 2) + 1 = m2 by omega]
    have hE : ∀ j s2, j < 2 ^ K → s2 < 2 * 2 ^ K →
        dftN (2 * 2 ^ K)
          (fun m2 => (∑ u ∈ Finset.range (2 ^ K),
              x (u * (2 * 2 ^ K) + m2) * w (2 ^ K) (j * u)) * w (2 ^ k) (m2 * j)) s2
          = dftN (2 ^ k) x (2 ^ K * s2 + j) := by
      intro j s2 hj hs2
      unfold dftN
      rw [hkk, sum_range_mul_split (2 ^ K) (2 * 2 ^ K)]
      calc ∑ m2 ∈ Finset.range (2 * 2 ^ K),
            (∑ u ∈ Finset.range (2 ^ K),
              x (u * (2 * 2 ^ K) + m2) * w (2 ^ K) (j * u))
              * w (2 ^ K * (2 * 2 ^ K)) (m2 * j) * w (2 * 2 ^ K) (s2 * m2)
          = ∑ m2 ∈ Finset.range (2 * 2 ^ K), ∑ u ∈ Finset.range (2 ^ K),
              x (u * (2 * 2 ^ K) + m2) * w (2 ^ K) (j * u)
                * w (2 ^ K * (2 * 2 ^ K)) (m2 * j) * w (2 * 2 ^ K) (s2 * m2) := by
            refine Finset.sum_congr rfl (fun m2 hm2 => ?_)
            rw [Finset.sum_mul, Finset.sum_mul]
        _ = ∑ u ∈ Finset.range (2 ^ K), ∑ m2 ∈ Finset.range (2 * 2 ^ K),
              x (u * (2 * 2 ^ K) + m2) * w (2 ^ K) (j * u)
                * w (2 ^ K * (2 * 2 ^ K)) (m2 * j) * w (2 * 2 ^ K) (s2 * m2) :=
            Finset.sum_comm
        _ = ∑ u ∈ Finset.range (2 ^ K), ∑ m2 ∈ Finset.range (2 * 2 ^ K),
              x (u * (2 * 2 ^ K) + m2)
                * w (2 ^ K * (2 * 2 ^ K)) ((2 ^ K * s2 + j) * (u * (2 * 2 ^ K) + m2)) := by
            refine Finset.sum_congr rfl (fun u hu =>
              Finset.sum_congr rfl (fun m2 hm2 => ?_))
            rw [w_odd_split (2 ^ K) s2 j u m2 (by positivity),
              show m2 * j = j * m2 from Nat.mul_comm m2 j]
            ring
    have hp4v1 : ∀ j q, j < 2 ^ K → q < 2 ^ K →
        (p4 j q).1 = dftN (2 ^ k) x (2 ^ K * (2 * q) + j) := by
      intro j q hj hq
      rw [hp4char j hj q hq]
      show dftN (2 * 2 ^ K) (pairRowFlat (p3 j)) (2 * q) = _
      rw [dftN_congr (2 * 2 ^ K) (pairRowFlat (p3 j))
        (fun m2 => (∑ u ∈ Finset.range (2 ^ K),
            x (u * (2 * 2 ^ K) + m2) * w (2 ^ K) (j * u)) * w (2 ^ k) (m2 * j))
        (fun m2 hm2 => hflat j m2 hj hm2) (2 * q)]
      exact hE j (2 * q) hj (by omega)
    have hp4v2 : ∀ j q, j < 2 ^ K → q < 2 ^ K →
        (p4 j q).2 = dftN (2 ^ k) x (2 ^ K * (2 * q + 1) + j) := by
      intro j q hj hq
      rw [hp4char j hj q hq]
      show dftN (2 * 2 ^ K) (pairRowFlat (p3 j)) (2 * q + 1) = _
      rw [dftN_congr (2 * 2 ^ K) (pairRowFlat (p3 j))
        (fun m2 => (∑ u ∈ Finset.range (2 ^ K),
            x (u * (2 * 2 ^ K) + m2) * w (2 ^ K) (j * u)) * w (2 ^ k) (m2 * j))
        (fun m2 hm2 => hflat j m2 hj hm2) (2 * q + 1)]
      exact hE j (2 * q + 1) hj (by omega)
    have hfin : ofMatP (2 ^ K) p6 ((2 * 2 ^ K) * p + c) =
        (if c < 2 ^ K then (p5 p c).1 else (p5 p (c - 2 ^ K)).2) := by
      unfold ofMatP
      rw [hdiv, hmod]
      unfold pairRowFlat
      by_cases hpar : c % 2 = 0
      · rw [if_pos hpar, hp6char p hp (c / 2) (by omega)]
        show (if 2 * (c / 2) < 2 ^ K then (p5 p (2 * (c / 2))).1
            else (p5 p (2 * (c / 2) - 2 ^ K)).2) = _
        rw [show 2 * (c / 2) = c by omega]
      · rw [if_neg hpar, hp6char p hp (c / 2) (by omega)]
        show (if 2 * (c / 2) + 1 < 2 ^ K then (p5 p (2 * (c / 2) + 1)).1
            else (p5 p (2 * (c / 2) + 1 - 2 ^ K)).2) = _
        rw [show 2 * (c / 2) + 1 = c by omega]
    rw [hfin]
    by_cases hcn : c < 2 ^ K
    · rw [if_pos hcn, hp5spec p c hp hcn, hp4v1 c p hcn hp]
      congr 1
      have hexp : 2 ^ K * (2 * p) = 2 * 2 ^ K * p := by ring
      omega
    · rw [if_neg hcn, hp5spec p (c - 2 ^ K) hp (by omega),
        hp4v2 (c - 2 ^ K) p (by omega) hp]
      congr 1
      have hexp : 2 ^ K * (2 * p + 1) = 2 * 2 ^ K * p + 2 ^ K := by ring
      omega

/-! The main induction: on any power-of-two length, with scratch at least
`_scrach_length` long and fuel exceeding the exponent, `_fft_inplace`
succeeds and computes exactly the forward DFT. -/

lemma fftGo_correct : ∀ (k fuel : ℕ), k < fuel → ∀ (x : ℕ → ℂ) (scr : Scratch),
    scrachLength k ≤ scrLenOf scr →
    ∃ y scr1, fftInplaceGo fuel (2 ^ k) x scr = some (y, scr1) ∧
      scrLenOf scr1 = scrLenOf scr ∧
      ∀ t, t < 2 ^ k → y t = dftN (2 ^ k) x t := by
  intro k
  induction k using Nat.strong_induction_on with
  | _ k ih =>
    intro fuel hfuel x scr hscr
    obtain ⟨f, rfl⟩ : ∃ f, fuel = f + 1 := ⟨fuel - 1, by omega⟩
    by_cases hk0 : k = 0
    · subst hk0
      refine ⟨x, scr, ?_, rfl, ?_⟩
      · rw [fftInplaceGo]
        norm_num
      · intro t ht
        norm_num at ht
        have ht0 : t = 0 := by omega
        subst ht0
        norm_num [dftN_one]
    · by_cases hk1 : k = 1
      · subst hk1
        refine ⟨fun j => if j = 0 then x 0 + x 1 else if j = 1 then x 0 - x 1 else x j,
          scr, ?_, rfl, ?_⟩
        · rw [fftInplaceGo]
          norm_num
        · intro t ht
          norm_num at ht
          interval_cases t
          · norm_num [dftN_two_zero]
          · norm_num [dftN_two_one]
      · have hk2 : 2 ≤ k := by omega
        have h4 : (4 : ℕ) ≤ 2 ^ k := by
          calc (4 : ℕ) = 2 ^ 2 := by norm_num
            _ ≤ 2 ^ k := Nat.pow_le_pow_right (by omega) hk2
        have hne1 : ¬ ((2 : ℕ) ^ k = 1) := by omega
        have hne2 : ¬ ((2 : ℕ) ^ k = 2) := by omega
        rcases Nat.even_or_odd k with he | ho
        · obtain ⟨K, hK⟩ := he
          have hpar : ¬ (k &&& 1 ≠ 0) := by rw [Nat.and_one_is_mod]; omega
          obtain ⟨y, scr1, heq, hlen, hval⟩ :=
            fftEvenpow_correct k K (fftInplaceGo f) hK (by omega)
              (fun v scr2 hs2 => ih K (by omega) f (by omega) v scr2 hs2) x scr hscr
          refine ⟨y, scr1, ?_, hlen, hval⟩
          rw [fftInplaceGo]
          simp only [if_neg hne1, if_neg hne2, lb_exact_pow, Option.some_bind,
            if_neg hpar]
          exact heq
        · obtain ⟨K, hK⟩ := ho
          have hpar : k &&& 1 ≠ 0 := by rw [Nat.and_one_is_mod]; omega
          obtain ⟨y, scr1, heq, hlen, hval⟩ :=
            fftOddpow_correct k K (fftInplaceGo f) (by omega) (by omega)
              (fun v scr2 hs2 => ih K (by omega) f (by omega) v scr2 hs2)
              (fun v scr2 hs2 => ih (K + 1) (by omega) f (by omega) v scr2 hs2)
              x scr hscr
          refine ⟨y, scr1, ?_, hlen, hval⟩
          rw [fftInplaceGo]
          simp only [if_neg hne1, if_neg hne2, lb_exact_pow, Option.some_bind,
            if_pos hpar]
          exact heq

/-! Top-level lemmas about the public wrapper `fft`. -/

/-- On a power-of-two length, `fft` succeeds, leaves the caller buffer
untouched, and its result is the forward DFT of the input values. -/
lemma fft_correct (x : List ℂ) (k : ℕ) (hx : x.length = 2 ^ k) :
    ∃ y scr1,
      fftInplaceGo (2 ^ k) (2 ^ k) (fun i => x.getD i 0)
        (if scrachLength k = 0 then none
         else some (fun _ => (0 : ℂ), scrachLength k)) = some (y, scr1) ∧
      fft x = (x, some ((List.range (2 ^ k)).map y)) ∧
      ∀ t, t < 2 ^ k → y t = dftN (2 ^ k) (fun i => x.getD i 0) t := by
  have hfuel : k < 2 ^ k := Nat.lt_two_pow k
  obtain ⟨y, scr1, heq, hlen, hval⟩ := fftGo_correct k (2 ^ k) hfuel
    (fun i => x.getD i 0)
    (if scrachLength k = 0 then none else some (fun _ => (0 : ℂ), scrachLength k))
    (by
      by_cases h0 : scrachLength k = 0
      · rw [if_pos h0, h0]
        exact Nat.zero_le _
      · rw [if_neg h0]
        exact le_rfl)
  refine ⟨y, scr1, heq, ?_, hval⟩
  simp only [fft, hx, lb_exact_pow, heq]

/-- On a non-power-of-two length, `fft` raises before touching anything:
the caller buffer is returned unchanged and there is no result. -/
lemma fft_invalid (x : List ℂ) (hx : ∀ j : ℕ, x.length ≠ 2 ^ j) : fft x = (x, none) := by
  have hnone : lb_exact (x.length : ℤ) = none := by
    rw [lb_exact_none_iff]
    intro j hj
    exact hx j (by exact_mod_cast hj)
  simp only [fft, hnone]

/-- The caller-owned buffer passes through `fft` unchanged on every path. -/
lemma fft_fst (x : List ℂ) : (fft x).1 = x := by
  rcases hcase : lb_exact (x.length : ℤ) with - | lb_n
  · simp only [fft, hcase]
  · simp only [fft, hcase]
    rcases hgo : fftInplaceGo x.length x.length (fun i => x.getD i 0)
      (if scrachLength lb_n = 0 then none
       else some (fun _ => (0 : ℂ), scrachLength lb_n)) with - | p
    · rfl
    · rfl

/-! Claim theorems. -/

/-- C1: for every input sequence of power-of-two length N = 2^k, `fft`
returns a sequence of length N whose entry t is the forward DFT sum
`Σ_{m<N} x[m]·exp(-2πi·t·m/N)` (the function `dftN` built on the twiddle
`w`), under exact complex arithmetic. -/
theorem claim_C1 (x : List ℂ) (k : ℕ) (hx : x.length = 2 ^ k) :
    ∃ r : List ℂ, (fft x).2 = some r ∧ r.length = 2 ^ k ∧
      ∀ t, t < 2 ^ k → r.getD t 0 = dftN (2 ^ k) (fun i => x.getD i 0) t := by
  obtain ⟨y, scr1, heq, hfft, hval⟩ := fft_correct x k hx
  refine ⟨(List.range (2 ^ k)).map y, by rw [hfft], by simp, ?_⟩
  intro t ht
  have htlen : t < ((List.range (2 ^ k)).map y).length := by simp [ht]
  rw [List.getD_eq_getElem _ _ htlen]
  simp only [List.getElem_map, List.getElem_range]
  exact hval t ht

theorem claim_C1_witness :
    ([(1 : ℂ)].length = 2 ^ 0) ∧
    (∃ r : List ℂ, (fft [(1 : ℂ)]).2 = some r ∧ r.length = 2 ^ 0 ∧
      ∀ t, t < 2 ^ 0 → r.getD t 0 = dftN (2 ^ 0) (fun i => [(1 : ℂ)].getD i 0) t) :=
  ⟨rfl, claim_C1 [(1 : ℂ)] 0 rfl⟩

/-- C2: for every input whose length is not a power of two (including 0),
`fft` raises the `InvalidLength` condition (the `ValueError` from
`lb_exact`, modeled by `none`) and the caller-owned buffer is returned
entirely unchanged: the error is raised before any allocation or copy. -/
theorem claim_C2 (x : List ℂ) (hx : ∀ j : ℕ, x.length ≠ 2 ^ j) :
    (fft x).2 = none ∧ (fft x).1 = x := by
  rw [fft_invalid x hx]
  exact ⟨rfl, rfl⟩

theorem claim_C2_witness :
    (∀ j : ℕ, ([(1 : ℂ), 2, 3].length ≠ 2 ^ j)) ∧
    ((fft [(1 : ℂ), 2, 3]).2 = none ∧ (fft [(1 : ℂ), 2, 3]).1 = [(1 : ℂ), 2, 3]) := by
  have h3 : ∀ j : ℕ, (3 : ℕ) ≠ 2 ^ j := by
    intro j
    match j with
    | 0 => decide
    | 1 => decide
    | j + 2 =>
      have h4 : (4 : ℕ) ≤ 2 ^ (j + 2) := by
        calc (4 : ℕ) = 2 ^ 2 := by norm_num
          _ ≤ 2 ^ (j + 2) := Nat.pow_le_pow_right (by omega) (by omega)
      omega
  have hlen : [(1 : ℂ), 2, 3].length = 3 := rfl
  exact ⟨by rw [hlen]; exact h3, claim_C2 [(1 : ℂ), 2, 3] (by rw [hlen]; exact h3)⟩

/-- C3: from the public entry point on any power-of-two length, the scratch
buffer of length `_scrach_length(log2 N)` is sufficient for the whole
recursion: every internal precondition (evenness, scratch size including the
`None`-scratch case, contiguity of reshapes, power-of-two shapes) is modeled
as a failure branch of the embedding, and `fft` succeeds, so no internal
failure is reachable. -/
theorem claim_C3 (x : List ℂ) (k : ℕ) (hx : x.length = 2 ^ k) :
    ((fft x).2.isSome) = true := by
  obtain ⟨y, scr1, heq, hfft, hval⟩ := fft_correct x k hx
  rw [hfft]
  rfl

theorem claim_C3_witness :
    ([(1 : ℂ), 2].length = 2 ^ 1) ∧ (((fft [(1 : ℂ), 2]).2.isSome) = true) :=
  ⟨rfl, claim_C3 [(1 : ℂ), 2] 1 rfl⟩

/-- C4 counterexample: `_scrach_length(4)` strips 4 → 2 → 1 and returns 0,
yet N = 2^4 = 16 is neither 2 nor 4, refuting the claim that the odd residue
reaches 1 exactly when the original N was 2 or 4. -/
theorem claim_C4_counterexample :
    scrachLength 4 = 0 ∧ stripTwos 4 = 1 ∧ (2 : ℕ) ^ 4 ≠ 2 ∧ (2 : ℕ) ^ 4 ≠ 4 := by
  have h4 : stripTwos 4 = 1 := by
    have h := stripTwos_two_pow 2
    norm_num at h
    exact h
  refine ⟨?_, h4, by norm_num, by norm_num⟩
  simp only [scrachLength, h4]
  norm_num

/-- C4 (amended): for k ≥ 1 the sizing procedure halves k while it is even,
reaching the odd residue `stripTwos k`; it returns 0 exactly when that odd
residue is 1, which happens exactly when k itself is a power of two (so for
N ∈ {2, 4, 16, 256, ...}, not only N ∈ {2, 4}); otherwise it returns
`2^((stripTwos k − 1)/2)`.  For k = 0 an explicit guard returns 0. -/
theorem claim_C4 (k : ℕ) (hk : 1 ≤ k) :
    stripTwos k % 2 = 1 ∧
    (scrachLength k = 0 ↔ stripTwos k = 1) ∧
    (stripTwos k = 1 ↔ ∃ j, k = 2 ^ j) ∧
    (stripTwos k ≠ 1 → scrachLength k = 2 ^ ((stripTwos k - 1) / 2)) ∧
    scrachLength 0 = 0 := by
  refine ⟨stripTwos_mod_two k (by omega), scrachLength_eq_zero_iff k (by omega),
    stripTwos_eq_one_iff k (by omega), ?_, rfl⟩
  intro hne
  have hmod := stripTwos_mod_two k (by omega)
  simp only [scrachLength]
  rw [if_neg (by omega : ¬ k = 0),
    if_neg (by omega : ¬ (stripTwos k - 1) / 2 = 0)]

theorem claim_C4_witness :
    1 ≤ 12 ∧
    (stripTwos 12 % 2 = 1 ∧
    (scrachLength 12 = 0 ↔ stripTwos 12 = 1) ∧
    (stripTwos 12 = 1 ↔ ∃ j, 12 = 2 ^ j) ∧
    (stripTwos 12 ≠ 1 → scrachLength 12 = 2 ^ ((stripTwos 12 - 1) / 2)) ∧
    scrachLength 0 = 0) :=
  ⟨by norm_num, claim_C4 12 (by norm_num)⟩

/-- C5: `fft` never mutates the caller's array: the caller-owned buffer
(threaded explicitly through the embedding, in which every in-place mutation
rebinds the buffer it targets) is returned unchanged on every path, and on
valid input the returned sequence is the in-place core `_fft_inplace` run on
a fresh copy of the caller's values. -/
theorem claim_C5 (x : List ℂ) : (fft x).1 = x ∧
    ∀ k, x.length = 2 ^ k → ∃ y scr1,
      fftInplaceGo (2 ^ k) (2 ^ k) (fun i => x.getD i 0)
        (if scrachLength k = 0 then none
         else some (fun _ => (0 : ℂ), scrachLength k)) = some (y, scr1) ∧
      (fft x).2 = some ((List.range (2 ^ k)).map y) := by
  refine ⟨fft_fst x, fun k hx => ?_⟩
  obtain ⟨y, scr1, heq, hfft, hval⟩ := fft_correct x k hx
  exact ⟨y, scr1, heq, by rw [hfft]⟩

theorem claim_C5_witness :
    ([(1 : ℂ), 2].length = 2 ^ 1) ∧ ((fft [(1 : ℂ), 2]).1 = [(1 : ℂ), 2]) ∧
    (∃ y scr1, fftInplaceGo (2 ^ 1) (2 ^ 1) (fun i => [(1 : ℂ), 2].getD i 0)
        (if scrachLength 1 = 0 then none
         else some (fun _ => (0 : ℂ), scrachLength 1)) = some (y, scr1) ∧
      (fft [(1 : ℂ), 2]).2 = some ((List.range (2 ^ 1)).map y)) :=
  ⟨rfl, (claim_C5 [(1 : ℂ), 2]).1, (claim_C5 [(1 : ℂ), 2]).2 1 rfl⟩

/-- C6: on an (n, n, m) view with n a power of two, `transpose_square`
succeeds and moves the m-group originally at outer position (i, j) to
position (j, i) as an unmodified atomic unit (the abstract payload `β`);
consequently applying it twice restores the original contents. -/
theorem claim_C6 {β : Type*} (k : ℕ) (a : ℕ → ℕ → β) :
    ∃ t, transposeSquare (2 ^ k) a = some t ∧
      (∀ i j, i < 2 ^ k → j < 2 ^ k → t i j = a j i) ∧
      ∃ t2, transposeSquare (2 ^ k) t = some t2 ∧
        ∀ i j, i < 2 ^ k → j < 2 ^ k → t2 i j = a i j := by
  obtain ⟨t, ht, hts⟩ := transposeSquare_pow_spec k a
  obtain ⟨t2, ht2, ht2s⟩ := transposeSquare_pow_spec k t
  exact ⟨t, ht, hts, t2, ht2, fun i j hi hj => by rw [ht2s i j hi hj, hts j i hj hi]⟩

/-- C7 counterexample: `transpose_square` on the degenerate n = 0 view
raises (`lb_exact(0)` raises `ValueError` before the `n ≤ 1` no-op base
case is reached) instead of succeeding as a no-op. -/
theorem claim_C7_counterexample :
    transposeSquare 0 (fun _ _ => (0 : ℕ)) = none :=
  transposeSquare_zero _

/-- C7 (amended): `transpose_square` accepts every (n, n, m) view with
n ≥ 1 a power of two, and for n = 1 it succeeds as a no-op leaving the
buffer unchanged; for n = 0, however, it raises, because `lb_exact(0)` is
evaluated before the `n ≤ 1` base case. -/
theorem claim_C7 {β : Type*} (k : ℕ) (a : ℕ → ℕ → β) :
    ((transposeSquare (2 ^ k) a).isSome) = true ∧
    transposeSquare 1 a = some a ∧
    transposeSquare 0 a = none := by
  obtain ⟨t, ht, _⟩ := transposeSquare_pow_spec k a
  exact ⟨by rw [ht]; rfl, transposeSquare_one a, transposeSquare_zero a⟩

/-- C8: on an even-length sequence with scratch at least half as long,
`_interleave` rewrites x in place to [a0, b0, a1, b1, ...] (so [1..8]
becomes [1,5,2,6,3,7,4,8]), and `_deinterleave` performs the inverse
permutation, moving even-indexed elements to the first half and odd-indexed
elements to the second half. -/
theorem claim_C8 {α : Type*} (n L : ℕ) (x s : ℕ → α) (hn : n % 2 = 0) (hL : n / 2 ≤ L) :
    (∃ x1 s1, interleaveOp n x (some (s, L)) = some (x1, (s1, L)) ∧
      ∀ j, j < n → x1 j = if j % 2 = 0 then x (j / 2) else x (n / 2 + j / 2)) ∧
    (∃ x2 s2, deinterleaveOp n x (some (s, L)) = some (x2, (s2, L)) ∧
      ∀ j, j < n → x2 j = if j < n / 2 then x (2 * j) else x (2 * (j - n / 2) + 1)) :=
  ⟨interleaveOp_spec n L x s hn hL, deinterleaveOp_spec n L x s hn hL⟩

theorem claim_C8_witness :
    ((8 : ℕ) % 2 = 0 ∧ (8 : ℕ) / 2 ≤ 4) ∧
    ((∃ x1 s1, interleaveOp 8 (fun i => i + 1) (some (fun _ => 0, 4))
        = some (x1, (s1, 4)) ∧
      ∀ j, j < 8 → x1 j = if j % 2 = 0 then j / 2 + 1 else 8 / 2 + j / 2 + 1) ∧
     (∃ x2 s2, deinterleaveOp 8 (fun i => i + 1) (some (fun _ => 0, 4))
        = some (x2, (s2, 4)) ∧
      ∀ j, j < 8 → x2 j = if j < 8 / 2 then 2 * j + 1 else 2 * (j - 8 / 2) + 1 + 1)) := by
  refine ⟨by decide, ?_⟩
  exact claim_C8 8 4 (fun i => i + 1) (fun _ => 0) (by decide) (by decide)

/-- C9: on every even-length sequence with sufficient scratch, the two
permutations are mutually inverse on the contents:
`deinterleave(interleave(x)) == x` and `interleave(deinterleave(x)) == x`
at every in-range index. -/
theorem claim_C9 {α : Type*} (n L : ℕ) (x s : ℕ → α) (hn : n % 2 = 0) (hL : n / 2 ≤ L) :
    (∃ y sy z sz, interleaveOp n x (some (s, L)) = some (y, sy) ∧
      deinterleaveOp n y (some sy) = some (z, sz) ∧ ∀ j, j < n → z j = x j) ∧
    (∃ y sy z sz, deinterleaveOp n x (some (s, L)) = some (y, sy) ∧
      interleaveOp n y (some sy) = some (z, sz) ∧ ∀ j, j < n → z j = x j) := by
  constructor
  · obtain ⟨y, s1, hy, hychar⟩ := interleaveOp_spec n L x s hn hL
    obtain ⟨z, s2, hz, hzchar⟩ := deinterleaveOp_spec n L y s1 hn hL
    refine ⟨y, (s1, L), z, (s2, L), hy, hz, ?_⟩
    intro j hj
    rw [hzchar j hj]
    by_cases hjh : j < n / 2
    · rw [if_pos hjh, hychar (2 * j) (by omega),
        if_pos (by omega : (2 * j) % 2 = 0), show 2 * j / 2 = j by omega]
    · rw [if_neg hjh, hychar (2 * (j - n / 2) + 1) (by omega),
        if_neg (by omega : ¬ ((2 * (j - n / 2) + 1) % 2 = 0)),
        show n / 2 + (2 * (j - n / 2) + 1) / 2 = j by omega]
  · obtain ⟨y, s1, hy, hychar⟩ := deinterleaveOp_spec n L x s hn hL
    obtain ⟨z, s2, hz, hzchar⟩ := interleaveOp_spec n L y s1 hn hL
    refine ⟨y, (s1, L), z, (s2, L), hy, hz, ?_⟩
    intro j hj
    rw [hzchar j hj]
    by_cases hje : j % 2 = 0
    · rw [if_pos hje, hychar (j / 2) (by omega),
        if_pos (by omega : j / 2 < n / 2), show 2 * (j / 2) = j by omega]
    · rw [if_neg hje, hychar (n / 2 + j / 2) (by omega),
        if_neg (by omega : ¬ (n / 2 + j / 2 < n / 2)),
        show 2 * (n / 2 + j / 2 - n / 2) + 1 = j by omega]

theorem claim_C9_witness :
    ((8 : ℕ) % 2 = 0 ∧ (8 : ℕ) / 2 ≤ 4) ∧
    ((∃ y sy z sz, interleaveOp 8 (fun i => i + 1) (some (fun _ => 0, 4)) = some (y, sy) ∧
      deinterleaveOp 8 y (some sy) = some (z, sz) ∧ ∀ j, j < 8 → z j = j + 1) ∧
     (∃ y sy z sz, deinterleaveOp 8 (fun i => i + 1) (some (fun _ => 0, 4)) = some (y, sy) ∧
      interleaveOp 8 y (some sy) = some (z, sz) ∧ ∀ j, j < 8 → z j = j + 1)) := by
  refine ⟨by decide, ?_⟩
  exact claim_C9 8 4 (fun i => i + 1) (fun _ => 0) (by decide) (by decide)

/-- C10: `lb_exact` rejects every integer n ≤ 0 (n = 0 included, whose
bit_length makes the computed exponent negative) through the same
`ValueError` raise as positive non-powers-of-two, and consequently `fft` on
a zero-length input raises `InvalidLength` — returning no result and the
untouched caller buffer — instead of returning an empty result. -/
theorem claim_C10 :
    (∀ n : ℤ, n ≤ 0 → lb_exact n = none) ∧
    (∀ n : ℤ, (∀ j : ℕ, n ≠ 2 ^ j) → lb_exact n = none) ∧
    fft ([] : List ℂ) = ([], none) := by
  refine ⟨fun n hn => lb_exact_nonpos n hn, fun n hn => (lb_exact_none_iff n).mpr hn, ?_⟩
  refine fft_invalid [] (fun j => ?_)
  have h1 : (1 : ℕ) ≤ 2 ^ j := Nat.one_le_two_pow
  simp only [List.length_nil]
  omega

theorem claim_C10_witness :
    ((-5 : ℤ) ≤ 0 ∧ lb_exact (-5) = none) ∧ fft ([] : List ℂ) = ([], none) :=
  ⟨⟨by decide, claim_C10.1 (-5) (by decide)⟩, claim_C10.2.2⟩

end CacheFFT
